import Mathlib

/-!
# Verification of the `404_crawler` same-domain web crawler

A shallow embedding of `src/404_crawler.py` over strings modelled as `List Char`.

The crawler delegates URL handling to CPython's `urllib.parse` (version 3.11);
the functions `urlsplit`, `urlparse`, `urlunsplit`, `urlunparse`, `_splitparams`
and `_splitnetloc` are therefore embedded here following the Python source of
`urllib/parse.py` (3.11).  Two deliberate simplifications, both irrelevant to
the inputs appearing in any theorem below:
* the `ValueError`s raised by `urlsplit` for an authority containing `[`/`]`
  brackets (unbalanced, or balanced with an invalid bracketed host), and the
  NFKC check for non-ASCII authorities, are not modelled (the embedded parser
  is total, per the lenient-parse reading of the spec; no theorem below
  involves a bracketed or non-ASCII authority);
* `str.lower`/`str.isalpha` are modelled on their ASCII behaviour
  (`url[0].isascii() and url[0].isalpha()` is exactly ASCII-alpha, so the
  scheme check is exact; only non-ASCII netloc lowering would differ).

External collaborators (`requests.get`, `open`/`read`, BeautifulSoup link
extraction with `urljoin`, the CSV file system sink) are capabilities carried
in an `Env`/sink parameter, exactly at the interface boundaries the code uses.
-/

abbrev Str := List Char

/-- ASCII lower-casing of one character, the ASCII fragment of `str.lower`. -/
def lowerChar (c : Char) : Char :=
  if 'A' ≤ c ∧ c ≤ 'Z' then Char.ofNat (c.toNat + 32) else c

/-- `str.lower` (ASCII fragment). -/
def lowerStr (s : Str) : Str := s.map lowerChar

/-- `str.rstrip("/")`: remove every trailing `'/'`. -/
def dropTrailingSlashes (s : Str) : Str :=
  (s.reverse.dropWhile (· == '/')).reverse

/-- `str.lstrip("/")`: remove every leading `'/'`. -/
def dropLeadingSlashes (s : Str) : Str := s.dropWhile (· == '/')

/-- `hay.startswith(pre)` for list-strings. -/
def beginsWith : Str → Str → Bool
  | _, [] => true
  | [], _ :: _ => false
  | c :: h, d :: p => c == d && beginsWith h p

/-- `needle in hay` (Python substring test). -/
def isSubstrOf (needle : Str) : Str → Bool
  | [] => beginsWith [] needle
  | c :: t => beginsWith (c :: t) needle || isSubstrOf needle t

/-- Split at the first character satisfying `p`: returns the part before it
and, when it occurs, the part after it (the separator is dropped).
Models `str.split(sep, 1)` / `str.find`-based splitting for one character. -/
def splitAtFirst (p : Char → Bool) : Str → Str × Option Str
  | [] => ([], none)
  | c :: s =>
    if p c then ([], some s)
    else
      match splitAtFirst p s with
      | (a, r) => (c :: a, r)

/-- Split at the last character satisfying `p` (when present):
`some (a, b)` with the original string equal to `a ++ sep :: b`,
`b` free of characters satisfying `p`. -/
def splitAtLast (p : Char → Bool) (s : Str) : Option (Str × Str) :=
  match splitAtFirst p s.reverse with
  | (br, some ar) => some (ar.reverse, br.reverse)
  | (_, none) => none

/-- `url.lstrip(_WHATWG_C0_CONTROL_OR_SPACE)`: remove leading characters with
code point at most U+0020 (C0 controls and space). -/
def dropC0Space (s : Str) : Str := s.dropWhile fun c => c.toNat ≤ 32

/-- `_UNSAFE_URL_BYTES_TO_REMOVE = ['\t', '\r', '\n']`: the removal loop
`url = url.replace(b, "")` over the three characters. -/
def removeUnsafe (s : Str) : Str :=
  s.filter fun c => !(c == '\t' || c == '\r' || c == '\n')

/-- `scheme_chars` of `urllib.parse`: ASCII letters, digits, `+`, `-`, `.`. -/
def isSchemeChar (c : Char) : Bool :=
  c.isAlpha || c.isDigit || c == '+' || c == '-' || c == '.'

/-- `uses_params` of `urllib.parse`. -/
def usesParams : List Str :=
  [[], "ftp".data, "hdl".data, "prospero".data, "http".data, "imap".data,
   "https".data, "shttp".data, "rtsp".data, "rtsps".data, "rtspu".data,
   "sip".data, "sips".data, "mms".data, "sftp".data, "tel".data]

/-- `uses_netloc` of `urllib.parse`. -/
def usesNetloc : List Str :=
  [[], "ftp".data, "http".data, "gopher".data, "nntp".data, "telnet".data,
   "imap".data, "wais".data, "file".data, "mms".data, "https".data,
   "shttp".data, "snews".data, "prospero".data, "rtsp".data, "rtsps".data,
   "rtspu".data, "rsync".data, "svn".data, "svn+ssh".data, "sftp".data,
   "nfs".data, "git".data, "git+ssh".data, "ws".data, "wss".data]

/-- The scheme-extraction block of `urlsplit`:
`i = url.find(':')`; extract and lower-case the scheme when `i > 0`,
`url[0]` is an ASCII letter, and every character of `url[:i]` is in
`scheme_chars`; otherwise the scheme stays `''`. -/
def splitScheme (url : Str) : Str × Str :=
  match splitAtFirst (· == ':') url with
  | (pre, some rest) =>
    if !pre.isEmpty
        && (match pre with | c :: _ => c.isAlpha | [] => false)
        && pre.all isSchemeChar
    then (lowerStr pre, rest)
    else ([], url)
  | (_, none) => ([], url)

/-- `_splitnetloc(url, 2)` applied to the part after the leading `"//"`:
the netloc ends at the first of `/`, `?`, `#` (minimum of the finds). -/
def splitNetloc : Str → Str × Str
  | [] => ([], [])
  | c :: s =>
    if c == '/' || c == '?' || c == '#' then ([], c :: s)
    else
      match splitNetloc s with
      | (a, r) => (c :: a, r)

structure SplitResult where
  scheme : Str
  netloc : Str
  path : Str
  query : Str
  fragment : Str
deriving Repr, DecidableEq

/-- `if ch in url: url, x = url.split(ch, 1)` — the guarded one-shot split of
`urlsplit` (when the character does not occur, the second part stays `''`). -/
def splitOpt (p : Char → Bool) (l : Str) : Str × Str :=
  match splitAtFirst p l with
  | (a, some x) => (a, x)
  | (a, none) => (a, [])

/-- `urllib.parse.urlsplit` (CPython 3.11), with `allow_fragments=True` and
default `scheme=''`; the two raising checks are not modelled (see header). -/
def urlsplit (url0 : Str) : SplitResult :=
  let url1 := removeUnsafe (dropC0Space url0)
  let su := splitScheme url1
  let nu :=
    if su.2.take 2 = ['/', '/'] then splitNetloc (su.2.drop 2)
    else ([], su.2)
  let fu := splitOpt (· == '#') nu.2
  let qu := splitOpt (· == '?') fu.1
  ⟨su.1, nu.1, qu.1, qu.2, fu.2⟩

/-- `_splitparams`: split the parameters from the last path segment.
(The callers only invoke it when `';' in url`; the `i = -1` quirk of the
no-slash branch is reproduced verbatim anyway.) -/
def splitparams (url : Str) : Str × Str :=
  if url.contains '/' then
    match splitAtLast (· == '/') url with
    | some (a, b) =>
      match splitAtFirst (· == ';') b with
      | (_, none) => (url, [])
      | (c, some d) => (a ++ '/' :: c, d)
    | none => (url, [])
  else
    match splitAtFirst (· == ';') url with
    | (c, some d) => (c, d)
    | (_, none) => (url.dropLast, url)

structure ParseResult where
  scheme : Str
  netloc : Str
  path : Str
  params : Str
  query : Str
  fragment : Str
deriving Repr, DecidableEq

/-- `urllib.parse.urlparse`: `urlsplit`, then split the params off the path
when the scheme uses params and the path contains `';'`. -/
def urlparse (url : Str) : ParseResult :=
  let r := urlsplit url
  let pm :=
    if r.scheme ∈ usesParams ∧ ';' ∈ r.path then splitparams r.path
    else (r.path, [])
  ⟨r.scheme, r.netloc, pm.1, pm.2, r.query, r.fragment⟩

/-- `urllib.parse.urlunsplit` (CPython 3.11). -/
def urlunsplit (r : SplitResult) : Str :=
  let url0 := r.path
  let url1 :=
    if r.netloc ≠ [] ∨ (r.scheme ≠ [] ∧ r.scheme ∈ usesNetloc ∧ url0.take 2 ≠ ['/', '/'])
    then
      let url' := if url0 ≠ [] ∧ url0.head? ≠ some '/' then '/' :: url0 else url0
      ['/', '/'] ++ r.netloc ++ url'
    else url0
  let url2 := if r.scheme ≠ [] then r.scheme ++ ':' :: url1 else url1
  let url3 := if r.query ≠ [] then url2 ++ '?' :: r.query else url2
  if r.fragment ≠ [] then url3 ++ '#' :: r.fragment else url3

/-- `urllib.parse.urlunparse`: rejoin path and params, then `urlunsplit`. -/
def urlunparse (p : ParseResult) : Str :=
  let url := if p.params ≠ [] then p.path ++ ';' :: p.params else p.path
  urlunsplit ⟨p.scheme, p.netloc, url, p.query, p.fragment⟩

/-- `netloc[4:] if netloc.startswith("www.") else netloc`. -/
def stripWwwDot (netloc : Str) : Str :=
  if netloc.take 4 = "www.".data then netloc.drop 4 else netloc

/-- `canonicalize_url` of `src/404_crawler.py`: parse, lower-case the netloc
and strip one leading `"www."`, drop the fragment, reassemble, and
`rstrip("/")` the result. -/
def canonicalize_url (url : Str) : Str :=
  let parsed := urlparse url
  let netloc := stripWwwDot (lowerStr parsed.netloc)
  dropTrailingSlashes
    (urlunparse ⟨parsed.scheme, netloc, parsed.path, parsed.params, parsed.query, []⟩)

/-- The path/params round trip performed by `urlparse` followed by
`urlunparse`: split the params off the path (when the scheme uses params and
a `';'` occurs), then rejoin with `';'` when the params are non-empty. -/
def paramsRejoin (scheme p : Str) : Str :=
  let pm := if scheme ∈ usesParams ∧ ';' ∈ p then splitparams p else (p, [])
  if pm.2 ≠ [] then pm.1 ++ ';' :: pm.2 else pm.1

/-- The canonical host: the lower-cased, `www.`-stripped netloc. -/
def canonicalHost (u : Str) : Str := stripWwwDot (lowerStr (urlsplit u).netloc)

/-- The path part of the canonical form: params split and rejoined, and —
when there is no query to absorb the `rstrip("/")` — trailing slashes
removed. -/
def canonicalPathPart (u : Str) : Str :=
  let r := urlsplit u
  let j := paramsRejoin r.scheme r.path
  if r.query = [] then dropTrailingSlashes j else j

example :
    canonicalize_url "https://www.Ejemplo.com/sobre-nosotros/#section".data
      = "https://ejemplo.com/sobre-nosotros".data := by decide

example : canonicalize_url "http://example.com/".data = "http://example.com".data := by
  decide

/-! ## The crawler (`class Crawler` and `main` of `src/404_crawler.py`) -/

/-- The result of `requests.get`: status code, `Content-Type` header
(defaulted to `""` when absent, as `resp.headers.get("Content-Type", "")`
does), and the body `resp.text`. -/
structure HttpResponse where
  status_code : Nat
  content_type : Str
  text : Str

/-- The external collaborators of one crawl, as capabilities:
* `fetch url` models `requests.get(url, headers=..., timeout=None,
  allow_redirects=True)`; `.error ()` models a raised
  `requests.exceptions.RequestException`;
* `readFile p` models `open(p, "r", encoding="utf-8").read()` for `file://`
  URLs; `.error ()` models any raised exception;
* `extractHrefs html current` models BeautifulSoup anchor extraction
  followed by `urljoin(current, href.strip())` for each `href`: the list of
  absolute (not yet canonicalized) URLs found in `html`. -/
structure Env where
  fetch : Str → Except Unit HttpResponse
  readFile : Str → Except Unit Str
  extractHrefs : Str → Str → List Str

/-- The constructor-time fields of `Crawler.__init__` (logging omitted). -/
structure Crawler where
  start_url : Str
  same_domain : Bool
  max_workers : Nat
  base_domain : Str
  csv_output : Str

/-- `Crawler.__init__`: canonicalize the start URL, take its netloc as the
base domain, and name the CSV output after it. -/
def Crawler.init (start_url : Str) (same_domain : Bool) (max_workers : Nat) :
    Crawler :=
  let s := canonicalize_url start_url
  let bd := (urlparse s).netloc
  ⟨s, same_domain, max_workers, bd, bd ++ ".csv".data⟩

/-- `Crawler._is_same_domain`: canonicalize, re-parse, compare the netloc to
the base domain for exact equality. -/
def Crawler.is_same_domain (c : Crawler) (url : Str) : Bool :=
  (urlparse (canonicalize_url url)).netloc == c.base_domain

/-- `Crawler._parse_links`: the anchor hrefs of the page (absolute, via the
extraction capability), each canonicalized. -/
def Crawler.parse_links (_c : Crawler) (env : Env) (html_text current_url : Str) :
    List Str :=
  (env.extractHrefs html_text current_url).map canonicalize_url

/-- `Crawler._visit_url`, as a pure function from the visit's environment to
`(records appended to all_links, URLs put on the queue)`:
* `file://` scheme: read `parsed.path.lstrip("/")`; success records
  `(url, 200)` with content type `"text/html"`; failure records `(url, 0)`
  and returns;
* otherwise fetch; success records `(url, status)`; a transport error
  records `(url, 0)` and returns;
* then, when `"text/html" in content_type.lower()`, parse the links and keep
  those passing the same-domain filter (when enabled) and not yet visited.
The visited set read here is the one the dispatching loop had after the
batch was claimed (tasks are modelled as running after the drain completes,
one legal schedule of the thread pool). -/
def Crawler.visit_url (c : Crawler) (env : Env) (visited : List Str)
    (url : Str) : List (Str × Nat) × List Str :=
  let parsed := urlparse url
  let fetched : Except Unit (Nat × Str × Str) :=
    if parsed.scheme = "file".data then
      match env.readFile (dropLeadingSlashes parsed.path) with
      | .ok html_text => .ok (200, "text/html".data, html_text)
      | .error e => .error e
    else
      match env.fetch url with
      | .ok resp => .ok (resp.status_code, resp.content_type, resp.text)
      | .error e => .error e
  match fetched with
  | .error _ => ([(url, 0)], [])
  | .ok (status_code, content_type, html_text) =>
    if isSubstrOf "text/html".data (lowerStr content_type) then
      let sublinks := c.parse_links env html_text url
      ([(url, status_code)],
        sublinks.filter fun link =>
          !(c.same_domain && !(c.is_same_domain link)) && !(visited.contains link))
    else ([(url, status_code)], [])

/-- The mutable state of `Crawler.run`: the visited set (kept in claim order,
so it doubles as the dispatch log — `self.visited.add` happens exactly when a
task is submitted), the queue, the record list, and whether the loop has
exited. -/
structure RunState where
  visited : List Str
  queue : List Str
  all_links : List (Str × Nat)
  finished : Bool
deriving Repr, DecidableEq

/-- The state `Crawler.run` starts from: empty visited set, the canonical
start URL queued (by `__init__`), no records. -/
def Crawler.initState (c : Crawler) : RunState := ⟨[], [c.start_url], [], false⟩

/-- The inner drain of `run`: pop every queued URL; skip it when already
visited, otherwise mark it visited and submit it.  Returns the batch of
claimed URLs (in order) and the updated visited set. -/
def drainClaim (queue visited : List Str) : List Str × List Str :=
  match queue with
  | [] => ([], visited)
  | u :: rest =>
    if u ∈ visited then drainClaim rest visited
    else
      let bv := drainClaim rest (visited ++ [u])
      (u :: bv.1, bv.2)

/-- Execute one claimed batch: concatenated records and pushes of the visits. -/
def runBatch (c : Crawler) (env : Env) (visited : List Str) :
    List Str → List (Str × Nat) × List Str
  | [] => ([], [])
  | u :: rest =>
    let rp := c.visit_url env visited u
    let rp2 := runBatch c env visited rest
    (rp.1 ++ rp2.1, rp.2 ++ rp2.2)

/-- The `while True` loop of `Crawler.run`, fuel-indexed: drain the queue into
a batch; exit (`finished := true`) when nothing was claimed; otherwise run the
batch, queue its pushes, append its records, and continue. -/
def runLoop (c : Crawler) (env : Env) : Nat → RunState → RunState
  | 0, st => st
  | fuel + 1, st =>
    if st.finished then st
    else
      let bv := drainClaim st.queue st.visited
      if bv.1.isEmpty then
        { st with visited := bv.2, queue := [], finished := true }
      else
        let rp := runBatch c env bv.2 bv.1
        runLoop c env fuel
          ⟨bv.2, rp.2, st.all_links ++ rp.1, false⟩

/-- The CSV payload `_save_csv` writes: the header row, then one row per
record. -/
structure CsvFile where
  header : List Str
  rows : List (Str × Nat)
deriving Repr, DecidableEq

/-- What `run` reports after the loop: the final engine state, whether
`_save_csv` was called, and the sink error it swallowed, if any. -/
structure RunReport where
  finalState : RunState
  csv_written : Bool
  csv_error : Option Unit
deriving Repr, DecidableEq

/-- The tail of `Crawler.run` plus `_save_csv`: write the CSV exactly when
`self.all_links` is non-empty; a sink failure is caught (logged), never
re-raised. -/
def Crawler.run (c : Crawler) (env : Env)
    (sink : CsvFile → Except Unit Unit) (fuel : Nat) : RunReport :=
  let st := runLoop c env fuel c.initState
  if st.all_links.isEmpty then ⟨st, false, none⟩
  else
    match sink ⟨["enlace".data, "codigo_estado".data], st.all_links⟩ with
    | .ok _ => ⟨st, true, none⟩
    | .error e => ⟨st, true, some e⟩

/-! ## Shared lemmas about the visit routine -/

/-- Every control path of `_visit_url` appends exactly one record, keyed by
the visited URL (file read ok / file read error / fetch ok / fetch error). -/
theorem visit_url_one_record (c : Crawler) (env : Env) (visited : List Str)
    (url : Str) : ∃ status, (c.visit_url env visited url).1 = [(url, status)] := by
  unfold Crawler.visit_url
  dsimp only
  split
  · exact ⟨_, rfl⟩
  · split <;> exact ⟨_, rfl⟩

/-- Everything `_visit_url` pushes is the canonicalization of some raw href. -/
theorem visit_url_pushes_canonical (c : Crawler) (env : Env)
    (visited : List Str) (url : Str) :
    ∀ l ∈ (c.visit_url env visited url).2, ∃ raw, canonicalize_url raw = l := by
  intro l hl
  unfold Crawler.visit_url Crawler.parse_links at hl
  dsimp only at hl
  split at hl
  · simp at hl
  · split at hl
    · dsimp only at hl
      rcases List.mem_map.mp (List.mem_filter.mp hl).1 with ⟨raw, _, hraw⟩
      exact ⟨raw, hraw⟩
    · simp at hl

/-- On every control path the pushes of `_visit_url` pass the same-domain
filter whenever filtering is enabled. -/
theorem visit_url_pushes_same_domain (c : Crawler) (env : Env)
    (visited : List Str) (url : Str) (hsd : c.same_domain = true) :
    ∀ l ∈ (c.visit_url env visited url).2, c.is_same_domain l = true := by
  intro l hl
  unfold Crawler.visit_url at hl
  dsimp only at hl
  split at hl
  · simp at hl
  · split at hl
    · dsimp only at hl
      have hp := (List.mem_filter.mp hl).2
      rw [hsd] at hp
      simp only [Bool.true_and, Bool.and_eq_true, Bool.not_not,
        Bool.not_eq_eq_eq_not] at hp
      exact hp.1
    · simp at hl

/-! ## Claim C4: trailing-slash handling of the canonicalizer -/

/-- The reassembled URL of the spec: parse, lower-case the host, strip one
leading `"www."`, drop the fragment, reassemble — everything
`canonicalize_url` does before its final `rstrip("/")`. -/
def reassembledUrl (url : Str) : Str :=
  let parsed := urlparse url
  let netloc := stripWwwDot (lowerStr parsed.netloc)
  urlunparse ⟨parsed.scheme, netloc, parsed.path, parsed.params, parsed.query, []⟩

theorem dropWhile_head_not (p : Char → Bool) :
    ∀ (l : Str) (c : Char), (l.dropWhile p).head? = some c → p c = false := by
  intro l
  induction l with
  | nil => intro c h; simp [List.dropWhile] at h
  | cons a t ih =>
    intro c h
    rw [List.dropWhile] at h
    split at h
    · exact ih c h
    · rename_i hpa
      simp only [List.head?_cons, Option.some.injEq] at h
      subst h
      exact Bool.not_eq_true _ ▸ hpa

/-- The result of `rstrip("/")` never ends in `'/'`. -/
theorem dropTrailingSlashes_getLast (s : Str) :
    (dropTrailingSlashes s).getLast? ≠ some '/' := by
  unfold dropTrailingSlashes
  rw [List.getLast?_reverse]
  intro h
  have := dropWhile_head_not _ _ _ h
  simp at this

/-- C4, counterexample: on `http://example.com/a//` the reassembled URL ends
in two slashes, yet `canonicalize_url` removes both of them, so the result
does not end in a slash — refuting "at most one trailing slash removed /
the result still ends in at least one `/`". -/
theorem canonicalize_url_single_slash_claim_cex :
    reassembledUrl "http://example.com/a//".data = "http://example.com/a//".data ∧
    canonicalize_url "http://example.com/a//".data = "http://example.com/a".data ∧
    (canonicalize_url "http://example.com/a//".data).getLast? ≠ some '/' := by
  refine ⟨by decide, by decide, by decide⟩

/-- C4, amended: `canonicalize_url` equals the reassembled URL with **all**
trailing slashes removed (Python's `rstrip("/")`), so the result never ends
in `'/'`. -/
theorem canonicalize_url_strips_all_trailing_slashes (url : Str) :
    canonicalize_url url = dropTrailingSlashes (reassembledUrl url) ∧
    (canonicalize_url url).getLast? ≠ some '/' :=
  ⟨rfl, dropTrailingSlashes_getLast _⟩

/-! ## Claim C5: exactly one record per visit -/

/-- C5: every control path of `_visit_url` (file read success, file read
failure, HTTP success, HTTP transport error) appends exactly one record,
`(url, status)`, to `all_links` — never zero, never two. -/
theorem visit_appends_exactly_one_record (c : Crawler) (env : Env)
    (visited : List Str) (url : Str) :
    ∃ status, (c.visit_url env visited url).1 = [(url, status)] :=
  visit_url_one_record c env visited url

/-! ## Claim C6: transport errors are terminal, sentinel-recorded, local -/

/-- An environment in which every fetch and file read fails and pages have
no links. -/
def errEnv : Env :=
  ⟨fun _ => .error (), fun _ => .error (), fun _ _ => []⟩

/-- C6: when the fetch of a non-`file://` URL raises a transport error, the
visit records exactly the sentinel `(url, 0)`, pushes nothing, and the batch
containing it still processes the remaining URLs (the error neither retries
nor aborts the engine). -/
theorem transport_error_sentinel (c : Crawler) (env : Env) (visited : List Str)
    (url : Str) (hscheme : (urlparse url).scheme ≠ "file".data)
    (herr : env.fetch url = .error ()) :
    c.visit_url env visited url = ([(url, 0)], []) ∧
    ∀ rest, runBatch c env visited (url :: rest) =
      ((url, 0) :: (runBatch c env visited rest).1, (runBatch c env visited rest).2) := by
  have h1 : c.visit_url env visited url = ([(url, 0)], []) := by
    unfold Crawler.visit_url
    dsimp only
    rw [if_neg hscheme, herr]
  refine ⟨h1, fun rest => ?_⟩
  show ((c.visit_url env visited url).1 ++ _, (c.visit_url env visited url).2 ++ _) = _
  rw [h1]
  rfl

/-- Witness for C6 at a concrete input. -/
theorem transport_error_sentinel_witness :
    (Crawler.init "https://example.com".data true 10).visit_url errEnv []
        "https://example.com".data = ([("https://example.com".data, 0)], []) :=
  (transport_error_sentinel _ errEnv [] _ (by decide) rfl).1

/-! ## Claim C7: domain-filter correctness -/

/-- An environment whose pages fetch successfully as HTML with a single link
to `https://example.com/a`. -/
def okEnv : Env :=
  ⟨fun _ => .ok ⟨200, "text/html".data, "page".data⟩,
   fun _ => .error (),
   fun _ _ => ["https://example.com/a".data]⟩

/-- C7: `_is_same_domain` holds exactly when the host of the canonicalized
candidate equals the base domain; consequently `sub.example.com` fails
against base `example.com` while `www.example.com` passes; and with
filtering enabled, a link failing the test is never pushed. -/
theorem domain_filter_correct :
    (∀ (c : Crawler) (url : Str),
      c.is_same_domain url = true ↔
        (urlparse (canonicalize_url url)).netloc = c.base_domain) ∧
    (Crawler.init "https://example.com".data true 10).is_same_domain
        "https://sub.example.com/x".data = false ∧
    (Crawler.init "https://example.com".data true 10).is_same_domain
        "https://www.example.com/x".data = true ∧
    (∀ (c : Crawler) (env : Env) (visited : List Str) (u link : Str),
      c.same_domain = true → link ∈ (c.visit_url env visited u).2 →
      c.is_same_domain link = true) := by
  refine ⟨fun c url => ?_, by decide, by decide,
    fun c env visited u link hsd hmem =>
      visit_url_pushes_same_domain c env visited u hsd link hmem⟩
  unfold Crawler.is_same_domain
  exact beq_iff_eq

/-- Witness for C7: a same-domain link extracted from a visited page is in
the pushes, and the filter accepts it. -/
theorem domain_filter_correct_witness :
    (Crawler.init "https://example.com".data true 10).is_same_domain
        "https://example.com/a".data = true :=
  domain_filter_correct.2.2.2 (Crawler.init "https://example.com".data true 10)
    okEnv [] "https://example.com".data "https://example.com/a".data rfl
    (by decide)

/-! ## Claim C8: malformed seed URLs -/

/-- C8, counterexample: the seed `notaurl` establishes no base domain
(the netloc of its canonical form is empty), yet `Crawler.__init__`
completes — with `base_domain = ""` and output file name `.csv` — and the
run proceeds and records the seed, instead of an error propagating out of
startup. -/
theorem malformed_seed_not_fatal_cex :
    (Crawler.init "notaurl".data true 10).base_domain = [] ∧
    (Crawler.init "notaurl".data true 10).csv_output = ".csv".data ∧
    runLoop (Crawler.init "notaurl".data true 10) errEnv 2
        (Crawler.init "notaurl".data true 10).initState =
      ⟨["notaurl".data], [], [("notaurl".data, 0)], true⟩ := by
  refine ⟨by decide, by decide, by decide⟩

/-- C8, amended: startup never raises in the model (parsing is lenient): for
every seed the crawler is constructed, with the canonical seed as start URL
and its (possibly empty) host as base domain; in particular the hostless
seed `notaurl` yields `base_domain = ""` and its run completes, recording
`(notaurl, 0)` and writing the CSV.  (In CPython only the exotic
bracketed-authority `ValueError` of `urlsplit` — not modelled — can escape
startup.) -/
theorem startup_total_base_domain :
    (∀ (u : Str) (sd : Bool) (w : Nat),
      (Crawler.init u sd w).start_url = canonicalize_url u ∧
      (Crawler.init u sd w).base_domain = (urlparse (canonicalize_url u)).netloc) ∧
    (Crawler.init "notaurl".data true 10).base_domain = [] ∧
    ((Crawler.init "notaurl".data true 10).run errEnv (fun _ => .ok ()) 2).finalState.all_links
        = [("notaurl".data, 0)] ∧
    ((Crawler.init "notaurl".data true 10).run errEnv (fun _ => .ok ()) 2).csv_written
        = true := by
  refine ⟨fun u sd w => ⟨?_, ?_⟩, by decide, by decide, by decide⟩
  · simp only [Crawler.init]
  · simp only [Crawler.init]

/-! ## Claim C10: the CSV is written iff there are records -/

/-- C10: after the loop, `_save_csv` is called exactly when `all_links` is
non-empty (no file is created or overwritten otherwise), and a sink failure
is caught: the run returns the same final state and the same write decision
whatever the sink does. -/
theorem csv_written_iff_nonempty_records (c : Crawler) (env : Env)
    (sink sink' : CsvFile → Except Unit Unit) (fuel : Nat) :
    ((c.run env sink fuel).csv_written = true ↔
      (runLoop c env fuel c.initState).all_links ≠ []) ∧
    (c.run env sink fuel).finalState = (c.run env sink' fuel).finalState ∧
    (c.run env sink fuel).csv_written = (c.run env sink' fuel).csv_written := by
  unfold Crawler.run
  dsimp only
  by_cases h : (runLoop c env fuel c.initState).all_links = []
  · rw [h]
    simp
  · rw [if_neg (by simpa [List.isEmpty_iff] using h)]
    cases hs : sink ⟨["enlace".data, "codigo_estado".data],
        (runLoop c env fuel c.initState).all_links⟩ <;>
      cases hs' : sink' ⟨["enlace".data, "codigo_estado".data],
        (runLoop c env fuel c.initState).all_links⟩ <;>
      simp [h]

/-! ## Engine lemmas: the drain-and-claim step -/

/-- The visited set after a drain is the old one extended by the claimed
batch, in claim order. -/
theorem drainClaim_visited_eq (queue : List Str) :
    ∀ visited, (drainClaim queue visited).2 = visited ++ (drainClaim queue visited).1 := by
  induction queue with
  | nil => intro visited; simp [drainClaim]
  | cons u rest ih =>
    intro visited
    unfold drainClaim
    by_cases h : u ∈ visited
    · rw [if_pos h]; exact ih visited
    · rw [if_neg h]
      dsimp only
      rw [ih (visited ++ [u])]
      simp

/-- Claimed URLs come from the queue. -/
theorem drainClaim_batch_subset (queue : List Str) :
    ∀ visited, (drainClaim queue visited).1 ⊆ queue := by
  induction queue with
  | nil => intro visited; simp [drainClaim]
  | cons u rest ih =>
    intro visited
    unfold drainClaim
    by_cases h : u ∈ visited
    · rw [if_pos h]
      exact fun l hl => List.mem_cons_of_mem u (ih visited hl)
    · rw [if_neg h]
      intro l hl
      rcases List.mem_cons.mp hl with h1 | h2
      · exact h1 ▸ List.mem_cons_self u rest
      · exact List.mem_cons_of_mem u (ih (visited ++ [u]) h2)

/-- The claim step keeps the visited set duplicate-free: a URL is claimed
only when the membership test fails, and it is inserted at the same moment. -/
theorem drainClaim_nodup (queue : List Str) :
    ∀ visited, visited.Nodup → (drainClaim queue visited).2.Nodup := by
  induction queue with
  | nil => intro visited hv; simpa [drainClaim] using hv
  | cons u rest ih =>
    intro visited hv
    unfold drainClaim
    by_cases h : u ∈ visited
    · rw [if_pos h]; exact ih visited hv
    · rw [if_neg h]
      dsimp only
      refine ih (visited ++ [u]) ?_
      simpa [List.nodup_append] using ⟨hv, h⟩

/-- The loop never removes visited entries and only ever claims fresh ones:
the visited set stays duplicate-free. -/
theorem runLoop_nodup (c : Crawler) (env : Env) :
    ∀ (fuel : Nat) (st : RunState), st.visited.Nodup →
      ((runLoop c env fuel st).visited).Nodup := by
  intro fuel
  induction fuel with
  | zero => intro st h; exact h
  | succ n ih =>
    intro st h
    unfold runLoop
    by_cases hf : st.finished
    · rw [if_pos hf]; exact h
    · rw [if_neg hf]
      dsimp only
      by_cases hb : (drainClaim st.queue st.visited).1.isEmpty
      · rw [if_pos hb]; exact drainClaim_nodup _ _ h
      · rw [if_neg hb]
        exact ih _ (drainClaim_nodup _ _ h)

/-! ## Claim C1: at most one dispatch per canonical URL -/

/-- C1: over a whole run, the visited set — which records, in order, exactly
the URLs submitted to `_visit_url` (the membership check and the insertion
happen together in the dispatching loop, immediately before
`executor.submit`) — never contains a URL twice: no URL is dispatched more
than once, however many times it is pushed to the queue. -/
theorem engine_dispatches_each_url_at_most_once (c : Crawler) (env : Env)
    (fuel : Nat) :
    ((runLoop c env fuel c.initState).visited).Nodup :=
  runLoop_nodup c env fuel c.initState (by simp [Crawler.initState])

/-! ## Claim C9: every frontier/visited URL is a canonicalizer output -/

/-- Membership in the image of `canonicalize_url`. -/
def InCanonicalImage (u : Str) : Prop := ∃ raw, canonicalize_url raw = u

/-- Every URL of the state is a `canonicalize_url` output, and so is every
recorded URL. -/
def StateCanonical (st : RunState) : Prop :=
  (∀ u ∈ st.visited, InCanonicalImage u) ∧
  (∀ u ∈ st.queue, InCanonicalImage u) ∧
  (∀ r ∈ st.all_links, InCanonicalImage r.1)

/-- Batch records are keyed by batch URLs; batch pushes are canonicalizer
outputs. -/
theorem runBatch_canonical (c : Crawler) (env : Env) (visited : List Str) :
    ∀ batch : List Str,
      (∀ r ∈ (runBatch c env visited batch).1, r.1 ∈ batch) ∧
      (∀ l ∈ (runBatch c env visited batch).2, InCanonicalImage l) := by
  intro batch
  induction batch with
  | nil => simp [runBatch]
  | cons u rest ih =>
    unfold runBatch
    dsimp only
    constructor
    · intro r hr
      rcases List.mem_append.mp hr with h1 | h2
      · rcases visit_url_one_record c env visited u with ⟨st, hst⟩
        rw [hst] at h1
        simp only [List.mem_singleton] at h1
        subst h1
        exact List.mem_cons_self u rest
      · exact List.mem_cons_of_mem u (ih.1 r h2)
    · intro l hl
      rcases List.mem_append.mp hl with h1 | h2
      · exact visit_url_pushes_canonical c env visited u l h1
      · exact ih.2 l h2

/-- The canonical-image invariant is preserved by the loop. -/
theorem runLoop_canonical (c : Crawler) (env : Env) :
    ∀ (fuel : Nat) (st : RunState), StateCanonical st →
      StateCanonical (runLoop c env fuel st) := by
  intro fuel
  induction fuel with
  | zero => intro st h; exact h
  | succ n ih =>
    intro st h
    obtain ⟨hvis, hq, hrec⟩ := h
    have hvis' : ∀ u ∈ (drainClaim st.queue st.visited).2, InCanonicalImage u := by
      intro u hu
      rw [drainClaim_visited_eq] at hu
      rcases List.mem_append.mp hu with h1 | h2
      · exact hvis u h1
      · exact hq u (drainClaim_batch_subset _ _ h2)
    unfold runLoop
    by_cases hf : st.finished
    · rw [if_pos hf]; exact ⟨hvis, hq, hrec⟩
    · rw [if_neg hf]
      dsimp only
      by_cases hb : (drainClaim st.queue st.visited).1.isEmpty
      · rw [if_pos hb]
        exact ⟨hvis', by simp, hrec⟩
      · rw [if_neg hb]
        refine ih _ ⟨hvis', ?_, ?_⟩
        · intro u hu
          exact (runBatch_canonical c env _ _).2 u hu
        · intro r hr
          rcases List.mem_append.mp hr with h1 | h2
          · exact hrec r h1
          · have hbatch := (runBatch_canonical c env _ _).1 r h2
            exact hvis' r.1 (by
              rw [drainClaim_visited_eq]
              exact List.mem_append_right _ hbatch)

/-- C9: starting from `__init__`'s state (canonical seed queued), every URL
ever held by the queue or the visited set, and every recorded URL, is an
output of `canonicalize_url` — the seed is canonicalized on construction,
every extracted link is canonicalized before being pushed, and the visited
set only receives queued URLs. -/
theorem frontier_and_visited_in_canonical_image (start : Str) (sd : Bool)
    (w : Nat) (env : Env) (fuel : Nat) :
    StateCanonical (runLoop (Crawler.init start sd w) env fuel
      (Crawler.init start sd w).initState) := by
  refine runLoop_canonical _ env fuel _ ⟨by simp [Crawler.initState], ?_, by simp [Crawler.initState]⟩
  intro u hu
  simp only [Crawler.initState, List.mem_singleton] at hu
  subst hu
  exact ⟨start, by simp only [Crawler.init]⟩

/-! ## Claim C2: termination on a finite reachable graph -/

/-- A duplicate-free list contained in `U` is no longer than `U`. -/
theorem nodup_subset_length {l U : List Str} (hn : l.Nodup) (hs : l ⊆ U) :
    l.length ≤ U.length := by
  classical
  calc l.length = l.toFinset.card := (List.toFinset_card_of_nodup hn).symm
    _ ≤ U.toFinset.card :=
        Finset.card_le_card fun x hx =>
          List.mem_toFinset.mpr (hs (List.mem_toFinset.mp hx))
    _ ≤ U.length := U.toFinset_card_le

/-- When every visit only pushes URLs of `U`, so does a whole batch. -/
theorem runBatch_pushes_sub (c : Crawler) (env : Env) (U : List Str)
    (hclosed : ∀ (visited : List Str) (url : Str),
      ∀ l ∈ (c.visit_url env visited url).2, l ∈ U) (visited : List Str) :
    ∀ batch : List Str, ∀ l ∈ (runBatch c env visited batch).2, l ∈ U := by
  intro batch
  induction batch with
  | nil => simp [runBatch]
  | cons u rest ih =>
    intro l hl
    unfold runBatch at hl
    dsimp only at hl
    rcases List.mem_append.mp hl with h1 | h2
    · exact hclosed visited u l h1
    · exact ih l h2

/-- Fuel bound: once the fuel exceeds the number of URLs of `U` not yet
visited, the loop reaches the `finished` exit — every productive iteration
claims at least one fresh URL of `U`, and the visited set is duplicate-free
inside `U`. -/
theorem runLoop_finishes (c : Crawler) (env : Env) (U : List Str)
    (hclosed : ∀ (visited : List Str) (url : Str),
      ∀ l ∈ (c.visit_url env visited url).2, l ∈ U) :
    ∀ (fuel : Nat) (st : RunState),
      st.queue ⊆ U → st.visited.Nodup → st.visited ⊆ U →
      U.length - st.visited.length < fuel →
      (runLoop c env fuel st).finished = true := by
  intro fuel
  induction fuel with
  | zero => intro st _ _ _ hfuel; exact absurd hfuel (Nat.not_lt_zero _)
  | succ n ih =>
    intro st hq hnd hvU hfuel
    unfold runLoop
    by_cases hf : st.finished
    · rw [if_pos hf]; exact hf
    · rw [if_neg hf]
      dsimp only
      by_cases hb : (drainClaim st.queue st.visited).1.isEmpty
      · rw [if_pos hb]
      · rw [if_neg hb]
        have hveq := drainClaim_visited_eq st.queue st.visited
        have hbsub := drainClaim_batch_subset st.queue st.visited
        have hnd' : (drainClaim st.queue st.visited).2.Nodup :=
          drainClaim_nodup _ _ hnd
        have hvU' : (drainClaim st.queue st.visited).2 ⊆ U := by
          rw [hveq]
          intro x hx
          rcases List.mem_append.mp hx with h1 | h2
          · exact hvU h1
          · exact hq (hbsub h2)
        have hlen : (drainClaim st.queue st.visited).2.length ≤ U.length :=
          nodup_subset_length hnd' hvU'
        have hlen2 : (drainClaim st.queue st.visited).2.length
            = st.visited.length + (drainClaim st.queue st.visited).1.length := by
          rw [hveq, List.length_append]
        have hpos : 0 < (drainClaim st.queue st.visited).1.length :=
          List.length_pos.mpr (by simpa [List.isEmpty_iff] using hb)
        refine ih _ ?_ hnd' hvU' ?_
        · intro l hl
          exact runBatch_pushes_sub c env U hclosed _ _ l hl
        · dsimp only
          omega

/-- C2: if the canonical seed lies in a finite set `U` of URLs that is closed
under the links a visit can push, then the run loop reaches its exit (a drain
that claims nothing) within `|U| + 1` batch iterations. -/
theorem engine_terminates_on_finite_graph (start : Str) (sd : Bool) (w : Nat)
    (env : Env) (U : List Str)
    (hseed : canonicalize_url start ∈ U)
    (hclosed : ∀ (visited : List Str) (url : Str),
      ∀ l ∈ ((Crawler.init start sd w).visit_url env visited url).2, l ∈ U) :
    (runLoop (Crawler.init start sd w) env (U.length + 1)
      (Crawler.init start sd w).initState).finished = true := by
  refine runLoop_finishes _ env U hclosed _ _ ?_ (by simp [Crawler.initState])
    (by simp [Crawler.initState]) ?_
  · intro l hl
    simp only [Crawler.initState, List.mem_singleton] at hl
    subst hl
    show (Crawler.init start sd w).start_url ∈ U
    simp only [Crawler.init]
    exact hseed
  · simp only [Crawler.initState, List.length_nil]
    omega

/-- Witness for C2: a one-page universe with a failing fetch terminates in
two iterations. -/
theorem engine_terminates_on_finite_graph_witness :
    canonicalize_url "http://a.com".data ∈ ["http://a.com".data] ∧
    (runLoop (Crawler.init "http://a.com".data true 10) errEnv 2
      (Crawler.init "http://a.com".data true 10).initState).finished = true := by
  refine ⟨by decide, ?_⟩
  have hc : ∀ (visited : List Str) (url : Str),
      ∀ l ∈ ((Crawler.init "http://a.com".data true 10).visit_url errEnv visited url).2,
        l ∈ ["http://a.com".data] := by
    intro visited url l hl
    unfold Crawler.visit_url at hl
    dsimp only at hl
    split at hl
    · simp at hl
    · rename_i heq
      split at heq <;> simp [errEnv] at heq
  have h := engine_terminates_on_finite_graph "http://a.com".data true 10 errEnv
    ["http://a.com".data] (by decide) hc
  simpa using h

/-! ## Claim C3: idempotence of the canonicalizer -/
/-! ### splitAtFirst -/

theorem splitAtFirst_eq_self (p : Char → Bool) :
    ∀ l : Str, (∀ c ∈ l, p c = false) → splitAtFirst p l = (l, none) := by
  intro l
  induction l with
  | nil => intro _; rfl
  | cons c t ih =>
    intro h
    unfold splitAtFirst
    rw [if_neg (by simp [h c (List.mem_cons_self c t)])]
    rw [ih fun d hd => h d (List.mem_cons_of_mem c hd)]

theorem splitAtFirst_append (p : Char → Bool) (sep : Char) (b : Str)
    (hsep : p sep = true) :
    ∀ a : Str, (∀ c ∈ a, p c = false) →
      splitAtFirst p (a ++ sep :: b) = (a, some b) := by
  intro a
  induction a with
  | nil => intro _; simp [splitAtFirst, hsep]
  | cons c t ih =>
    intro h
    rw [List.cons_append]
    unfold splitAtFirst
    rw [if_neg (by simp [h c (List.mem_cons_self c t)])]
    rw [ih fun d hd => h d (List.mem_cons_of_mem c hd)]

/-- Decomposition: what `splitAtFirst` returns always reassembles the input,
the first part is `p`-free, and a found separator satisfies `p`. -/
theorem splitAtFirst_spec (p : Char → Bool) :
    ∀ l : Str,
      (∀ a, splitAtFirst p l = (a, none) → a = l ∧ ∀ c ∈ a, p c = false) ∧
      (∀ a r, splitAtFirst p l = (a, some r) →
        ∃ sep, p sep = true ∧ l = a ++ sep :: r ∧ ∀ c ∈ a, p c = false) := by
  intro l
  induction l with
  | nil =>
    constructor
    · intro a h
      simp [splitAtFirst] at h
      simp [h]
    · intro a r h
      simp [splitAtFirst] at h
  | cons c t ih =>
    constructor
    · intro a h
      unfold splitAtFirst at h
      split at h
      · simp at h
      · rename_i hpc
        rcases hsplit : splitAtFirst p t with ⟨a', r'⟩
        rw [hsplit] at h
        cases r' with
        | some r'' => simp at h
        | none =>
          simp only [Prod.mk.injEq] at h
          obtain ⟨ha, _⟩ := h
          obtain ⟨heq, hfree⟩ := ih.1 a' hsplit
          subst ha
          refine ⟨by rw [heq], ?_⟩
          intro d hd
          rcases List.mem_cons.mp hd with h1 | h2
          · subst h1; exact Bool.not_eq_true _ ▸ hpc
          · exact hfree d h2
    · intro a r h
      unfold splitAtFirst at h
      split at h
      · rename_i hpc
        simp only [Prod.mk.injEq, Option.some.injEq] at h
        obtain ⟨ha, hr⟩ := h
        subst ha; subst hr
        exact ⟨c, hpc, by simp, by simp⟩
      · rename_i hpc
        rcases hsplit : splitAtFirst p t with ⟨a', r'⟩
        rw [hsplit] at h
        cases r' with
        | none => simp at h
        | some r'' =>
          simp only [Prod.mk.injEq, Option.some.injEq] at h
          obtain ⟨ha, hr⟩ := h
          subst ha; subst hr
          obtain ⟨sep, hs1, hs2, hs3⟩ := ih.2 a' r'' hsplit
          refine ⟨sep, hs1, by rw [List.cons_append, ← hs2], ?_⟩
          intro d hd
          rcases List.mem_cons.mp hd with h1 | h2
          · subst h1; exact Bool.not_eq_true _ ▸ hpc
          · exact hs3 d h2

/-! ### splitNetloc -/

theorem splitNetloc_append (a t : Str)
    (ha : ∀ c ∈ a, (c == '/' || c == '?' || c == '#') = false)
    (ht : t = [] ∨ ∃ d t', t = d :: t' ∧ (d == '/' || d == '?' || d == '#') = true) :
    splitNetloc (a ++ t) = (a, t) := by
  induction a with
  | nil =>
    rcases ht with h | ⟨d, t', h, hd⟩
    · subst h; rfl
    · subst h
      simp only [List.nil_append]
      unfold splitNetloc
      rw [if_pos hd]
  | cons c a' ih =>
    simp only [List.cons_append]
    unfold splitNetloc
    rw [if_neg (by simp [ha c (List.mem_cons_self c a')])]
    rw [ih fun d hd => ha d (List.mem_cons_of_mem c hd)]

/-- Decomposition of `splitNetloc`: input reassembles, first part is
delimiter-free, remainder is empty or starts with a delimiter. -/
theorem splitNetloc_spec :
    ∀ l a r, splitNetloc l = (a, r) →
      l = a ++ r ∧ (∀ c ∈ a, (c == '/' || c == '?' || c == '#') = false) ∧
      (r = [] ∨ ∃ d t', r = d :: t' ∧ (d == '/' || d == '?' || d == '#') = true) := by
  intro l
  induction l with
  | nil =>
    intro a r h
    unfold splitNetloc at h
    simp only [Prod.mk.injEq] at h
    obtain ⟨ha, hr⟩ := h
    subst ha
    subst hr
    exact ⟨rfl, by simp, Or.inl rfl⟩
  | cons c t ih =>
    intro a r h
    unfold splitNetloc at h
    split at h
    · rename_i hc
      simp only [Prod.mk.injEq] at h
      obtain ⟨ha, hr⟩ := h
      subst ha; subst hr
      exact ⟨by simp, by simp, Or.inr ⟨c, t, rfl, hc⟩⟩
    · rename_i hc
      rcases hsplit : splitNetloc t with ⟨a', r'⟩
      rw [hsplit] at h
      simp only [Prod.mk.injEq] at h
      obtain ⟨ha, hr⟩ := h
      subst ha; subst hr
      obtain ⟨h1, h2, h3⟩ := ih a' r' hsplit
      refine ⟨by rw [List.cons_append, ← h1], ?_, h3⟩
      intro d hd
      rcases List.mem_cons.mp hd with h4 | h5
      · subst h4; exact Bool.not_eq_true _ ▸ hc
      · exact h2 d h5

/-! ### lowerChar / lowerStr -/

theorem lowerChar_toNat_of_upper (c : Char) (h1 : 65 ≤ c.toNat)
    (h2 : c.toNat ≤ 90) : (lowerChar c).toNat = c.toNat + 32 := by
  unfold lowerChar
  rw [if_pos ⟨h1, h2⟩]
  show (Char.ofNat (c.toNat + 32)).toNat = c.toNat + 32
  unfold Char.ofNat
  rw [dif_pos (Or.inl (by omega))]
  rfl

theorem lowerChar_eq_self (c : Char) (h : ¬(65 ≤ c.toNat ∧ c.toNat ≤ 90)) :
    lowerChar c = c := by
  unfold lowerChar
  rw [if_neg]
  intro hc
  exact h ⟨hc.1, hc.2⟩

/-- For a target character that is neither an ASCII upper nor lower letter,
`lowerChar` neither produces nor destroys it. -/
theorem lowerChar_eq_iff (c d : Char) (hd1 : ¬(65 ≤ d.toNat ∧ d.toNat ≤ 90))
    (hd2 : ¬(97 ≤ d.toNat ∧ d.toNat ≤ 122)) : lowerChar c = d ↔ c = d := by
  constructor
  · intro h
    by_cases hc : 65 ≤ c.toNat ∧ c.toNat ≤ 90
    · exfalso
      have ht : (lowerChar c).toNat = c.toNat + 32 :=
        lowerChar_toNat_of_upper c hc.1 hc.2
      rw [h] at ht
      exact hd2 ⟨by omega, by omega⟩
    · rw [lowerChar_eq_self c hc] at h
      exact h
  · intro h
    subst h
    exact lowerChar_eq_self c hd1

theorem lowerChar_idem (c : Char) : lowerChar (lowerChar c) = lowerChar c := by
  by_cases hc : 65 ≤ c.toNat ∧ c.toNat ≤ 90
  · have ht : (lowerChar c).toNat = c.toNat + 32 :=
      lowerChar_toNat_of_upper c hc.1 hc.2
    exact lowerChar_eq_self _ (by omega)
  · rw [lowerChar_eq_self c hc, lowerChar_eq_self c hc]

theorem lowerStr_idem (s : Str) : lowerStr (lowerStr s) = lowerStr s := by
  unfold lowerStr
  rw [List.map_map]
  exact List.map_congr_left fun c _ => lowerChar_idem c

theorem mem_lowerStr_iff (s : Str) (d : Char) (hd1 : ¬(65 ≤ d.toNat ∧ d.toNat ≤ 90))
    (hd2 : ¬(97 ≤ d.toNat ∧ d.toNat ≤ 122)) : d ∈ lowerStr s ↔ d ∈ s := by
  unfold lowerStr
  constructor
  · intro h
    rcases List.mem_map.mp h with ⟨c, hc, hcd⟩
    rwa [(lowerChar_eq_iff c d hd1 hd2).mp hcd] at hc
  · intro h
    exact List.mem_map.mpr ⟨d, h, lowerChar_eq_self d hd1⟩

/-! ### dropTrailingSlashes -/

theorem dropTrailingSlashes_decomp (s : Str) :
    ∃ t, s = dropTrailingSlashes s ++ t ∧ ∀ c ∈ t, c = '/' := by
  refine ⟨(s.reverse.takeWhile (· == '/')).reverse, ?_, ?_⟩
  · unfold dropTrailingSlashes
    conv_lhs => rw [← List.reverse_reverse s,
      ← List.takeWhile_append_dropWhile (p := (· == '/')) (l := s.reverse)]
    rw [List.reverse_append]
  · intro c hc
    have := List.mem_takeWhile_imp (List.mem_reverse.mp hc)
    simpa using this

theorem dropTrailingSlashes_append_of_ne (a b : Str)
    (hb : dropTrailingSlashes b ≠ []) :
    dropTrailingSlashes (a ++ b) = a ++ dropTrailingSlashes b := by
  unfold dropTrailingSlashes at hb ⊢
  rw [List.reverse_append, List.dropWhile_append]
  have hne : ¬(List.dropWhile (· == '/') b.reverse).isEmpty := by
    intro h
    exact hb (by simp [List.isEmpty_iff.mp h])
  rw [if_neg hne, List.reverse_append, List.reverse_reverse]

theorem dropTrailingSlashes_append_getLast (a b : Str)
    (ha : a.getLast? ≠ some '/') :
    dropTrailingSlashes (a ++ b) = a ++ dropTrailingSlashes b := by
  by_cases hb : dropTrailingSlashes b = []
  · unfold dropTrailingSlashes at hb ⊢
    rw [List.reverse_append, List.dropWhile_append]
    have hbe : (List.dropWhile (· == '/') b.reverse).isEmpty := by
      simp [List.isEmpty_iff]
      simpa using congrArg List.reverse hb
    rw [if_pos hbe, hb, List.append_nil]
    have hhead : ∀ x, a.reverse = x → List.dropWhile (· == '/') x = x → True := fun _ _ _ => trivial
    cases hrev : a.reverse with
    | nil => simp at hrev; simp [hrev]
    | cons c t =>
      have hc : c ≠ '/' := by
        intro hceq
        apply ha
        rw [← List.head?_reverse, hrev, hceq]
        rfl
      rw [List.dropWhile_cons, if_neg (by simp [hc])]
      rw [← hrev, List.reverse_reverse]
  · exact dropTrailingSlashes_append_of_ne a b hb

theorem dropTrailingSlashes_idem (s : Str) :
    dropTrailingSlashes (dropTrailingSlashes s) = dropTrailingSlashes s := by
  unfold dropTrailingSlashes
  rw [List.reverse_reverse]
  congr 1
  cases hd : List.dropWhile (· == '/') s.reverse with
  | nil => rfl
  | cons c t =>
    have h := List.head?_dropWhile_not (· == '/') s.reverse
    rw [hd] at h
    simp only [List.head?_cons] at h
    rw [List.dropWhile_cons, if_neg (by simp [h])]

theorem dropTrailingSlashes_head (s : Str) (h : s.head? = some '/') :
    dropTrailingSlashes s = [] ∨ (dropTrailingSlashes s).head? = some '/' := by
  rcases dropTrailingSlashes_decomp s with ⟨t, hst, _⟩
  cases hd : dropTrailingSlashes s with
  | nil => exact Or.inl rfl
  | cons c cs =>
    right
    rw [hd] at hst
    rw [hst] at h
    simpa using h

/-! ### splitAtLast / splitparams / the params rejoin -/

theorem splitAtLast_spec (p : Char → Bool) (s a b : Str)
    (h : splitAtLast p s = some (a, b)) :
    ∃ sep, p sep = true ∧ s = a ++ sep :: b ∧ ∀ c ∈ b, p c = false := by
  unfold splitAtLast at h
  rcases hsplit : splitAtFirst p s.reverse with ⟨br, ar?⟩
  rw [hsplit] at h
  cases ar? with
  | none => simp at h
  | some ar =>
    simp only [Option.some.injEq, Prod.mk.injEq] at h
    obtain ⟨ha, hb2⟩ := h
    obtain ⟨sep, hs1, hs2, hs3⟩ := (splitAtFirst_spec p s.reverse).2 br ar hsplit
    subst ha
    subst hb2
    refine ⟨sep, hs1, ?_, ?_⟩
    · have h2 := congrArg List.reverse hs2
      rw [List.reverse_reverse] at h2
      rw [h2, List.reverse_append, List.reverse_cons, List.append_assoc]
      simp
    · intro c hc
      exact hs3 c (List.mem_reverse.mp hc)

theorem splitAtFirst_found (p : Char → Bool) (s : Str) (c : Char) (hc : c ∈ s)
    (hpc : p c = true) : ∃ a r, splitAtFirst p s = (a, some r) := by
  rcases hsplit : splitAtFirst p s with ⟨a, r?⟩
  cases r? with
  | some r => exact ⟨a, r, rfl⟩
  | none =>
    obtain ⟨heq, hfree⟩ := (splitAtFirst_spec p s).1 a hsplit
    subst heq
    rw [hfree c hc] at hpc
    cases hpc

/-- `_splitparams` under its call guard `';' in url`: either the parameters
are split off (the input is `path ++ ';' :: params`), or nothing is split. -/
theorem splitparams_spec (p : Str) (hp : ';' ∈ p) :
    ((splitparams p).1 = p ∧ (splitparams p).2 = []) ∨
    p = (splitparams p).1 ++ ';' :: (splitparams p).2 := by
  by_cases hs : p.contains '/'
  · rcases hlast : splitAtLast (· == '/') p with _ | ⟨a, b⟩
    · have heval : splitparams p = (p, []) := by
        unfold splitparams
        rw [if_pos hs, hlast]
      rw [heval]
      exact Or.inl ⟨rfl, rfl⟩
    · obtain ⟨sep, hsep, hdecomp, hbfree⟩ := splitAtLast_spec _ p a b hlast
      have hsep2 : sep = '/' := by simpa using hsep
      subst hsep2
      rcases hfirst : splitAtFirst (· == ';') b with ⟨c, dq⟩
      cases dq with
      | none =>
        have heval : splitparams p = (p, []) := by
          unfold splitparams
          rw [if_pos hs, hlast]
          dsimp only
          rw [hfirst]
        rw [heval]
        exact Or.inl ⟨rfl, rfl⟩
      | some d =>
        obtain ⟨sep2, hsep3, hd2, h9⟩ := (splitAtFirst_spec _ b).2 c d hfirst
        have hsep4 : sep2 = ';' := by simpa using hsep3
        subst hsep4
        have heval : splitparams p = (a ++ '/' :: c, d) := by
          unfold splitparams
          rw [if_pos hs, hlast]
          dsimp only
          rw [hfirst]
        rw [heval]
        right
        rw [hdecomp, hd2]
        dsimp only
        rw [List.append_assoc]
        rfl
  · rcases hfirst : splitAtFirst (· == ';') p with ⟨c, dq⟩
    cases dq with
    | none =>
      obtain ⟨heq, hfree⟩ := (splitAtFirst_spec _ p).1 c hfirst
      have h2 := hfree ';' (heq ▸ hp)
      simp at h2
    | some d =>
      obtain ⟨sep2, hsep3, hd2, h9⟩ := (splitAtFirst_spec _ p).2 c d hfirst
      have hsep4 : sep2 = ';' := by simpa using hsep3
      subst hsep4
      have heval : splitparams p = (c, d) := by
        unfold splitparams
        rw [if_neg hs, hfirst]
      rw [heval]
      exact Or.inr hd2


/-- Splitting and rejoining the params loses at most one trailing `';'`. -/
theorem paramsRejoin_spec (scheme p : Str) :
    paramsRejoin scheme p = p ∨ p = paramsRejoin scheme p ++ [';'] := by
  unfold paramsRejoin
  by_cases hg : scheme ∈ usesParams ∧ ';' ∈ p
  · rw [if_pos hg]
    dsimp only
    rcases splitparams_spec p hg.2 with ⟨h1, h2⟩ | h2
    · rw [h2]
      simp only [ne_eq, not_true_eq_false, if_false, not_false_eq_true]
      exact Or.inl h1
    · by_cases hsnd : (splitparams p).2 = []
      · rw [if_neg (by simp [hsnd])]
        right
        rw [hsnd] at h2
        exact h2
      · rw [if_pos hsnd]
        exact Or.inl h2.symm
  · rw [if_neg hg]
    simp

theorem paramsRejoin_mem (scheme p : Str) (c : Char)
    (h : c ∈ paramsRejoin scheme p) : c ∈ p := by
  rcases paramsRejoin_spec scheme p with heq | heq
  · rwa [heq] at h
  · rw [heq]
    exact List.mem_append_left _ h

theorem paramsRejoin_head (scheme p : Str) (hp : p = [] ∨ p.head? = some '/') :
    paramsRejoin scheme p = [] ∨ (paramsRejoin scheme p).head? = some '/' := by
  rcases paramsRejoin_spec scheme p with heq | heq
  · rw [heq]; exact hp
  · cases hj : paramsRejoin scheme p with
    | nil => exact Or.inl rfl
    | cons c cs =>
      right
      rcases hp with h | h
      · rw [hj] at heq
        rw [h] at heq
        simp at heq
      · rw [hj] at heq
        rw [heq] at h
        simpa using h

/-! ### The canonical host and path of a URL -/


/-- `canonicalize_url` in `urlunsplit` normal form. -/
theorem canonicalize_url_nf (u : Str) :
    canonicalize_url u =
      dropTrailingSlashes (urlunsplit
        ⟨(urlsplit u).scheme, canonicalHost u,
         paramsRejoin (urlsplit u).scheme (urlsplit u).path,
         (urlsplit u).query, []⟩) := rfl

/-! ### Character-class facts -/

theorem isUpper_toNat (c : Char) (h : c.isUpper = true) :
    65 ≤ c.toNat ∧ c.toNat ≤ 90 := by
  simp [Char.isUpper] at h
  exact ⟨h.1, h.2⟩

theorem isLower_toNat (c : Char) (h : c.isLower = true) :
    97 ≤ c.toNat ∧ c.toNat ≤ 122 := by
  simp [Char.isLower] at h
  exact ⟨h.1, h.2⟩

theorem isLower_of_toNat (c : Char) (h1 : 97 ≤ c.toNat) (h2 : c.toNat ≤ 122) :
    c.isLower = true := by
  simp [Char.isLower]
  exact ⟨h1, h2⟩

theorem isDigit_toNat (c : Char) (h : c.isDigit = true) :
    48 ≤ c.toNat ∧ c.toNat ≤ 57 := by
  simp [Char.isDigit] at h
  exact ⟨h.1, h.2⟩

theorem isAlpha_toNat (c : Char) (h : c.isAlpha = true) :
    65 ≤ c.toNat ∧ c.toNat ≤ 122 := by
  unfold Char.isAlpha at h
  rcases Bool.or_eq_true_iff.mp h with h1 | h1
  · have h2 := isUpper_toNat c h1
    omega
  · have h2 := isLower_toNat c h1
    omega

theorem lowerChar_isAlpha (c : Char) (h : c.isAlpha = true) :
    (lowerChar c).isAlpha = true := by
  by_cases hc : 65 ≤ c.toNat ∧ c.toNat ≤ 90
  · have ht := lowerChar_toNat_of_upper c hc.1 hc.2
    have hl : (lowerChar c).isLower = true :=
      isLower_of_toNat _ (by omega) (by omega)
    unfold Char.isAlpha
    rw [hl, Bool.or_true]
  · rwa [lowerChar_eq_self c hc]

theorem isSchemeChar_lowerChar (c : Char) (h : isSchemeChar c = true) :
    isSchemeChar (lowerChar c) = true := by
  by_cases hc : 65 ≤ c.toNat ∧ c.toNat ≤ 90
  · have ht := lowerChar_toNat_of_upper c hc.1 hc.2
    have hl : (lowerChar c).isLower = true :=
      isLower_of_toNat _ (by omega) (by omega)
    have ha : (lowerChar c).isAlpha = true := by
      unfold Char.isAlpha
      rw [hl, Bool.or_true]
    unfold isSchemeChar
    rw [ha]
    rfl
  · rwa [lowerChar_eq_self c hc]

/-- Scheme characters are none of the URL delimiters, the unsafe characters,
or the C0/space range. -/
theorem isSchemeChar_facts (c : Char) (h : isSchemeChar c = true) :
    (c == ':') = false ∧ (c == '/' || c == '?' || c == '#') = false ∧
    (c == '\t' || c == '\r' || c == '\n') = false ∧ ¬(c.toNat ≤ 32) := by
  unfold isSchemeChar at h
  have hn : 43 ≤ c.toNat ∧ c.toNat ≤ 122 ∧ c.toNat ≠ 44 ∧ c.toNat ≠ 47 ∧
      (c.toNat < 58 ∨ 65 ≤ c.toNat) := by
    rcases Bool.or_eq_true_iff.mp h with h1 | h1
    · rcases Bool.or_eq_true_iff.mp h1 with h2 | h2
      · rcases Bool.or_eq_true_iff.mp h2 with h3 | h3
        · rcases Bool.or_eq_true_iff.mp h3 with h4 | h4
          · have h5 := isAlpha_toNat c h4
            unfold Char.isAlpha at h4
            rcases Bool.or_eq_true_iff.mp h4 with h6 | h6
            · have h7 := isUpper_toNat c h6
              omega
            · have h7 := isLower_toNat c h6
              omega
          · have h5 := isDigit_toNat c h4
            omega
        · have h5 : c = '+' := by simpa using h3
          subst h5
          refine ⟨by decide, by decide, by decide, by decide, by decide⟩
      · have h5 : c = '-' := by simpa using h2
        subst h5
        refine ⟨by decide, by decide, by decide, by decide, by decide⟩
    · have h5 : c = '.' := by simpa using h1
      subst h5
      refine ⟨by decide, by decide, by decide, by decide, by decide⟩
  have hne : ∀ n : Nat, c.toNat ≠ n → ∀ d : Char, d.toNat = n → (c == d) = false := by
    intro n hn2 d hd
    apply beq_eq_false_iff_ne.mpr
    intro he
    subst he
    exact hn2 hd
  refine ⟨hne 58 (by omega) ':' rfl, ?_, ?_, by omega⟩
  · rw [hne 47 (by omega) '/' rfl, hne 63 (by omega) '?' rfl, hne 35 (by omega) '#' rfl]
    rfl
  · rw [hne 9 (by omega) '\t' rfl, hne 13 (by omega) '\r' rfl, hne 10 (by omega) '\n' rfl]
    rfl

/-! ### splitOpt and splitScheme -/

theorem splitOpt_eq_self (p : Char → Bool) (l : Str)
    (h : ∀ c ∈ l, p c = false) : splitOpt p l = (l, []) := by
  unfold splitOpt
  rw [splitAtFirst_eq_self p l h]

theorem splitOpt_append (p : Char → Bool) (sep : Char) (a b : Str)
    (hsep : p sep = true) (ha : ∀ c ∈ a, p c = false) :
    splitOpt p (a ++ sep :: b) = (a, b) := by
  unfold splitOpt
  rw [splitAtFirst_append p sep b hsep a ha]

theorem splitOpt_fst_free (p : Char → Bool) (l : Str) :
    ∀ c ∈ (splitOpt p l).1, p c = false := by
  unfold splitOpt
  rcases hsplit : splitAtFirst p l with ⟨a, r?⟩
  cases r? with
  | none => exact ((splitAtFirst_spec p l).1 a hsplit).2
  | some r =>
    obtain ⟨sep, _, _, hfree⟩ := (splitAtFirst_spec p l).2 a r hsplit
    exact hfree

theorem splitOpt_fst_sub (p : Char → Bool) (l : Str) :
    ∀ c ∈ (splitOpt p l).1, c ∈ l := by
  unfold splitOpt
  rcases hsplit : splitAtFirst p l with ⟨a, r?⟩
  cases r? with
  | none =>
    obtain ⟨heq, _⟩ := (splitAtFirst_spec p l).1 a hsplit
    intro c hc
    exact heq ▸ hc
  | some r =>
    obtain ⟨sep, _, hdecomp, _⟩ := (splitAtFirst_spec p l).2 a r hsplit
    intro c hc
    rw [hdecomp]
    exact List.mem_append_left _ hc

theorem splitOpt_snd_sub (p : Char → Bool) (l : Str) :
    ∀ c ∈ (splitOpt p l).2, c ∈ l := by
  unfold splitOpt
  rcases hsplit : splitAtFirst p l with ⟨a, r?⟩
  cases r? with
  | none => intro c hc; simp at hc
  | some r =>
    obtain ⟨sep, _, hdecomp, _⟩ := (splitAtFirst_spec p l).2 a r hsplit
    intro c hc
    rw [hdecomp]
    exact List.mem_append_right _ (List.mem_cons_of_mem _ hc)

/-- The scheme-extraction step: either nothing is extracted, or the input is
`pre ++ ':' :: rest` with a valid scheme prefix, lower-cased into the result. -/
theorem splitScheme_spec (l : Str) :
    splitScheme l = ([], l) ∨
    ∃ pre rest, l = pre ++ ':' :: rest ∧ splitScheme l = (lowerStr pre, rest) ∧
      pre ≠ [] ∧ (∃ c t, pre = c :: t ∧ c.isAlpha = true) ∧
      pre.all isSchemeChar = true := by
  unfold splitScheme
  rcases hsplit : splitAtFirst (· == ':') l with ⟨pre, r?⟩
  cases r? with
  | none => exact Or.inl rfl
  | some rest =>
    obtain ⟨sep, hsep, hdecomp, _⟩ := (splitAtFirst_spec _ l).2 pre rest hsplit
    have hsep2 : sep = ':' := by simpa using hsep
    subst hsep2
    dsimp only
    split
    · rename_i hcond
      simp only [Bool.and_eq_true, Bool.not_eq_true', List.isEmpty_eq_false] at hcond
      obtain ⟨⟨hpre, halpha⟩, hall⟩ := hcond
      refine Or.inr ⟨pre, rest, hdecomp, rfl, hpre, ?_, hall⟩
      cases pre with
      | nil => simp at halpha
      | cons c t => exact ⟨c, t, rfl, halpha⟩
    · exact Or.inl rfl

theorem splitOpt_decomp (p : Char → Bool) (l : Str) :
    ∃ t, l = (splitOpt p l).1 ++ t := by
  unfold splitOpt
  rcases hsplit : splitAtFirst p l with ⟨a, r?⟩
  cases r? with
  | none =>
    obtain ⟨heq, _⟩ := (splitAtFirst_spec p l).1 a hsplit
    exact ⟨[], by simp [heq]⟩
  | some r =>
    obtain ⟨sep, _, hdecomp, _⟩ := (splitAtFirst_spec p l).2 a r hsplit
    exact ⟨sep :: r, hdecomp⟩

theorem splitOpt_fst_head (p : Char → Bool) (l : Str)
    (h : (splitOpt p l).1 ≠ []) : (splitOpt p l).1.head? = l.head? := by
  obtain ⟨t, ht⟩ := splitOpt_decomp p l
  conv_rhs => rw [ht]
  cases hf : (splitOpt p l).1 with
  | nil => exact absurd hf h
  | cons c cs =>
    simp

/-- The component invariants of `urlsplit` needed for re-parsing its own
reassembled output. -/
theorem urlsplit_inv (u : Str) :
    (∀ c ∈ (urlsplit u).netloc, (c == '/' || c == '?' || c == '#') = false) ∧
    ('?' ∉ (urlsplit u).path ∧ '#' ∉ (urlsplit u).path) ∧
    '#' ∉ (urlsplit u).query ∧
    ((urlsplit u).scheme = [] ∨
      ((urlsplit u).scheme ≠ [] ∧
       (∃ c t, (urlsplit u).scheme = c :: t ∧ c.isAlpha = true) ∧
       (∀ c ∈ (urlsplit u).scheme, isSchemeChar c = true) ∧
       lowerStr (urlsplit u).scheme = (urlsplit u).scheme)) ∧
    ((urlsplit u).netloc ≠ [] →
      (urlsplit u).path = [] ∨ (urlsplit u).path.head? = some '/') ∧
    (∀ c ∈ (urlsplit u).netloc, (c == '\t' || c == '\r' || c == '\n') = false) ∧
    (∀ c ∈ (urlsplit u).path, (c == '\t' || c == '\r' || c == '\n') = false) ∧
    (∀ c ∈ (urlsplit u).query, (c == '\t' || c == '\r' || c == '\n') = false) := by
  have hu1 : ∀ c ∈ removeUnsafe (dropC0Space u),
      (c == '\t' || c == '\r' || c == '\n') = false := by
    intro c hc
    have := (List.mem_filter.mp hc).2
    simpa using this
  unfold urlsplit
  dsimp only
  rcases hss : splitScheme (removeUnsafe (dropC0Space u)) with ⟨sc, u2⟩
  dsimp only
  have hu2sub : ∀ c ∈ u2, c ∈ removeUnsafe (dropC0Space u) := by
    rcases splitScheme_spec (removeUnsafe (dropC0Space u)) with h |
      ⟨pre, rest, hdec, heq, h5, h6, h7⟩
    · rw [hss] at h
      simp only [Prod.mk.injEq] at h
      intro c hc
      rw [← h.2]
      exact hc
    · rw [hss] at heq
      simp only [Prod.mk.injEq] at heq
      intro c hc
      rw [hdec]
      exact List.mem_append_right _ (List.mem_cons_of_mem _ (heq.2 ▸ hc))
  have hscfacts : sc = [] ∨
      (sc ≠ [] ∧ (∃ c t, sc = c :: t ∧ c.isAlpha = true) ∧
       (∀ c ∈ sc, isSchemeChar c = true) ∧ lowerStr sc = sc) := by
    rcases splitScheme_spec (removeUnsafe (dropC0Space u)) with h |
      ⟨pre, rest, hdec, heq, hpre, ⟨c0, t0, hct, halpha⟩, hall⟩
    · rw [hss] at h
      simp only [Prod.mk.injEq] at h
      exact Or.inl h.1
    · rw [hss] at heq
      simp only [Prod.mk.injEq] at heq
      right
      rw [heq.1]
      refine ⟨by simp [lowerStr, hpre], ?_, ?_, lowerStr_idem pre⟩
      · exact ⟨lowerChar c0, lowerStr t0, by simp [hct, lowerStr],
          lowerChar_isAlpha c0 halpha⟩
      · intro c hc
        rcases List.mem_map.mp hc with ⟨d, hd, hdc⟩
        rw [← hdc]
        exact isSchemeChar_lowerChar d (by simpa using List.all_eq_true.mp hall d hd)
  by_cases hcase : u2.take 2 = ['/', '/']
  · rw [if_pos hcase]
    rcases hnl : splitNetloc (u2.drop 2) with ⟨nl, u3⟩
    dsimp only
    obtain ⟨hdec3, hnlfree, hbound⟩ := splitNetloc_spec (u2.drop 2) nl u3 hnl
    have hnlsub : ∀ c ∈ nl, c ∈ removeUnsafe (dropC0Space u) := by
      intro c hc
      exact hu2sub c (List.drop_subset 2 u2 (hdec3 ▸ List.mem_append_left _ hc))
    have hu3sub : ∀ c ∈ u3, c ∈ removeUnsafe (dropC0Space u) := by
      intro c hc
      exact hu2sub c (List.drop_subset 2 u2 (hdec3 ▸ List.mem_append_right _ hc))
    rcases hfu : splitOpt (· == '#') u3 with ⟨u4, frag⟩
    dsimp only
    have hu4free : ∀ c ∈ u4, (c == '#') = false := by
      have h2 := splitOpt_fst_free (· == '#') u3
      rw [hfu] at h2
      exact h2
    have hu4sub : ∀ c ∈ u4, c ∈ u3 := by
      have h2 := splitOpt_fst_sub (· == '#') u3
      rw [hfu] at h2
      exact h2
    rcases hqu : splitOpt (· == '?') u4 with ⟨pF, q⟩
    dsimp only
    have hpFfree : ∀ c ∈ pF, (c == '?') = false := by
      have h2 := splitOpt_fst_free (· == '?') u4
      rw [hqu] at h2
      exact h2
    have hpFsub : ∀ c ∈ pF, c ∈ u4 := by
      have h2 := splitOpt_fst_sub (· == '?') u4
      rw [hqu] at h2
      exact h2
    have hqsub : ∀ c ∈ q, c ∈ u4 := by
      have h2 := splitOpt_snd_sub (· == '?') u4
      rw [hqu] at h2
      exact h2
    refine ⟨hnlfree, ⟨?_, ?_⟩, ?_, hscfacts, ?_, ?_, ?_, ?_⟩
    · intro hq
      have h2 := hpFfree '?' hq
      simp at h2
    · intro hq
      have h2 := hu4free '#' (hpFsub '#' hq)
      simp at h2
    · intro hq
      have h2 := hu4free '#' (hqsub '#' hq)
      simp at h2
    · intro _
      by_cases hpF : pF = []
      · exact Or.inl hpF
      · right
        have hhead4 : pF.head? = u4.head? := by
          have h2 := splitOpt_fst_head (· == '?') u4
          rw [hqu] at h2
          exact h2 hpF
        have hu4ne : u4 ≠ [] := by
          intro h4
          rw [h4] at hhead4
          simp only [List.head?_nil] at hhead4
          exact hpF (by simpa using hhead4)
        have hhead3 : u4.head? = u3.head? := by
          have h2 := splitOpt_fst_head (· == '#') u3
          rw [hfu] at h2
          exact h2 hu4ne
        rcases hbound with h3 | ⟨d, t', h3, hd⟩
        · rw [h3] at hhead3
          simp only [List.head?_nil] at hhead3
          rw [hhead3] at hhead4
          exact absurd (by simpa using hhead4) hpF
        · rw [h3] at hhead3
          simp only [List.head?_cons] at hhead3
          have hheadpF : pF.head? = some d := hhead4.trans hhead3
          have hdmem : d ∈ pF := by
            cases pF with
            | nil => simp at hheadpF
            | cons x xs =>
              simp only [List.head?_cons, Option.some.injEq] at hheadpF
              rw [hheadpF]
              exact List.mem_cons_self _ _
          have hd1 : (d == '?') = false := hpFfree d hdmem
          have hd2 : (d == '#') = false := hu4free d (hpFsub d hdmem)
          rcases Bool.or_eq_true_iff.mp hd with h5 | h5
          · rcases Bool.or_eq_true_iff.mp h5 with h6 | h6
            · rw [hheadpF]
              have h7 : d = '/' := by simpa using h6
              rw [h7]
            · rw [h6] at hd1
              cases hd1
          · rw [h5] at hd2
            cases hd2
    · intro c hc
      exact hu1 c (hnlsub c hc)
    · intro c hc
      exact hu1 c (hu3sub c (hu4sub c (hpFsub c hc)))
    · intro c hc
      exact hu1 c (hu3sub c (hu4sub c (hqsub c hc)))
  · rw [if_neg hcase]
    dsimp only
    rcases hfu : splitOpt (· == '#') u2 with ⟨u4, frag⟩
    dsimp only
    have hu4free : ∀ c ∈ u4, (c == '#') = false := by
      have h2 := splitOpt_fst_free (· == '#') u2
      rw [hfu] at h2
      exact h2
    have hu4sub : ∀ c ∈ u4, c ∈ u2 := by
      have h2 := splitOpt_fst_sub (· == '#') u2
      rw [hfu] at h2
      exact h2
    rcases hqu : splitOpt (· == '?') u4 with ⟨pF, q⟩
    dsimp only
    have hpFfree : ∀ c ∈ pF, (c == '?') = false := by
      have h2 := splitOpt_fst_free (· == '?') u4
      rw [hqu] at h2
      exact h2
    have hpFsub : ∀ c ∈ pF, c ∈ u4 := by
      have h2 := splitOpt_fst_sub (· == '?') u4
      rw [hqu] at h2
      exact h2
    have hqsub : ∀ c ∈ q, c ∈ u4 := by
      have h2 := splitOpt_snd_sub (· == '?') u4
      rw [hqu] at h2
      exact h2
    refine ⟨by simp, ⟨?_, ?_⟩, ?_, hscfacts, by simp, by simp, ?_, ?_⟩
    · intro hq
      have h2 := hpFfree '?' hq
      simp at h2
    · intro hq
      have h2 := hu4free '#' (hpFsub '#' hq)
      simp at h2
    · intro hq
      have h2 := hu4free '#' (hqsub '#' hq)
      simp at h2
    · intro c hc
      exact hu1 c (hu2sub c (hu4sub c (hpFsub c hc)))
    · intro c hc
      exact hu1 c (hu2sub c (hu4sub c (hqsub c hc)))

/-! ### Reassembly -/

theorem dropTrailingSlashes_sub (s : Str) :
    ∀ c ∈ dropTrailingSlashes s, c ∈ s := by
  obtain ⟨t, ht, _⟩ := dropTrailingSlashes_decomp s
  intro c hc
  rw [ht]
  exact List.mem_append_left _ hc

theorem dropC0Space_eq_self (l : Str)
    (h : ∀ c, l.head? = some c → ¬(c.toNat ≤ 32)) : dropC0Space l = l := by
  unfold dropC0Space
  cases l with
  | nil => rfl
  | cons c t =>
    rw [List.dropWhile_cons, if_neg]
    simp only [decide_eq_true_eq]
    exact h c rfl

theorem splitScheme_valid (sc rest : Str) (hne : sc ≠ [])
    (halpha : ∃ c t, sc = c :: t ∧ c.isAlpha = true)
    (hall : ∀ c ∈ sc, isSchemeChar c = true)
    (hlow : lowerStr sc = sc) :
    splitScheme (sc ++ ':' :: rest) = (sc, rest) := by
  unfold splitScheme
  rw [splitAtFirst_append _ ':' rest (by simp) sc
    (fun c hc => (isSchemeChar_facts c (hall c hc)).1)]
  dsimp only
  obtain ⟨c0, t0, hct, hca⟩ := halpha
  subst hct
  rw [if_pos, hlow]
  simp only [List.isEmpty_cons, Bool.not_false, Bool.true_and, Bool.and_eq_true,
    List.all_eq_true]
  exact ⟨hca, fun c hc => hall c hc⟩

theorem splitScheme_head_not_alpha (l : Str)
    (h : ∀ c, l.head? = some c → c.isAlpha = false) :
    splitScheme l = ([], l) := by
  unfold splitScheme
  rcases hsplit : splitAtFirst (· == ':') l with ⟨pre, r?⟩
  cases r? with
  | none => rfl
  | some rest =>
    obtain ⟨sep, hsep, hdecomp, _⟩ := (splitAtFirst_spec _ l).2 pre rest hsplit
    cases pre with
    | nil => rfl
    | cons c t =>
      have hc : l.head? = some c := by rw [hdecomp]; rfl
      dsimp only
      rw [if_neg]
      intro hcontra
      rcases Bool.and_eq_true_iff.mp hcontra with ⟨h12, h3⟩
      rcases Bool.and_eq_true_iff.mp h12 with ⟨h1, h2⟩
      have h4 : c.isAlpha = true := h2
      rw [h c hc] at h4
      cases h4

/-- Parsing the reassembled canonical string recovers its components. -/
theorem urlsplit_reassembled (sc nl2 path q : Str)
    (hsc : sc = [] ∨ (sc ≠ [] ∧ (∃ c t, sc = c :: t ∧ c.isAlpha = true) ∧
       (∀ c ∈ sc, isSchemeChar c = true) ∧ lowerStr sc = sc))
    (_hnl2ne : nl2 ≠ [])
    (hnl2free : ∀ c ∈ nl2, (c == '/' || c == '?' || c == '#') = false)
    (hnl2clean : ∀ c ∈ nl2, (c == '\t' || c == '\r' || c == '\n') = false)
    (hpath_head : path = [] ∨ path.head? = some '/')
    (hpathq : '?' ∉ path) (hpathh : '#' ∉ path)
    (hpclean : ∀ c ∈ path, (c == '\t' || c == '\r' || c == '\n') = false)
    (hqh : '#' ∉ q)
    (hqclean : ∀ c ∈ q, (c == '\t' || c == '\r' || c == '\n') = false) :
    urlsplit ((if sc ≠ [] then sc ++ [':'] else []) ++
      '/' :: '/' :: (nl2 ++ (path ++ (if q ≠ [] then '?' :: q else [])))) =
      ⟨sc, nl2, path, q, []⟩ := by
  have htail_mem : ∀ c ∈ path ++ (if q ≠ [] then '?' :: q else []),
      c ∈ path ∨ c = '?' ∨ c ∈ q := by
    intro c hc
    rcases List.mem_append.mp hc with h1 | h1
    · exact Or.inl h1
    · by_cases hq : q ≠ []
      · rw [if_pos hq] at h1
        rcases List.mem_cons.mp h1 with h2 | h2
        · exact Or.inr (Or.inl h2)
        · exact Or.inr (Or.inr h2)
      · rw [if_neg hq] at h1
        simp at h1
  have hschars : ∀ c ∈ (if sc ≠ [] then sc ++ [':'] else []),
      isSchemeChar c = true ∨ c = ':' := by
    intro c hc
    by_cases hsne : sc ≠ []
    · rw [if_pos hsne] at hc
      rcases List.mem_append.mp hc with h1 | h1
      · rcases hsc with h2 | h2
        · exact absurd h2 hsne
        · exact Or.inl (h2.2.2.1 c h1)
      · simp at h1
        exact Or.inr h1
    · rw [if_neg hsne] at hc
      simp at hc
  have hclean : ∀ c ∈ ((if sc ≠ [] then sc ++ [':'] else []) ++
      '/' :: '/' :: (nl2 ++ (path ++ (if q ≠ [] then '?' :: q else [])))),
      (c == '\t' || c == '\r' || c == '\n') = false := by
    intro c hc
    rcases List.mem_append.mp hc with h1 | h1
    · rcases hschars c h1 with h2 | h2
      · exact (isSchemeChar_facts c h2).2.2.1
      · subst h2; decide
    · rcases List.mem_cons.mp h1 with h2 | h2
      · subst h2; decide
      · rcases List.mem_cons.mp h2 with h3 | h3
        · subst h3; decide
        · rcases List.mem_append.mp h3 with h4 | h4
          · exact hnl2clean c h4
          · rcases htail_mem c h4 with h5 | h5 | h5
            · exact hpclean c h5
            · subst h5; decide
            · exact hqclean c h5
  have hhead : ∀ c, ((if sc ≠ [] then sc ++ [':'] else []) ++
      '/' :: '/' :: (nl2 ++ (path ++ (if q ≠ [] then '?' :: q else [])))).head? = some c →
      ¬(c.toNat ≤ 32) := by
    intro c hc
    by_cases hsne : sc ≠ []
    · rw [if_pos hsne] at hc
      rcases hsc with h2 | h2
      · exact absurd h2 hsne
      · obtain ⟨c0, t0, hct, hca⟩ := h2.2.1
        rw [hct] at hc
        simp only [List.cons_append, List.head?_cons, Option.some.injEq] at hc
        cases hc
        have h6 := isAlpha_toNat _ hca
        omega
    · rw [if_neg hsne] at hc
      simp only [List.nil_append, List.head?_cons, Option.some.injEq] at hc
      cases hc
      decide
  have hscheme_step : splitScheme ((if sc ≠ [] then sc ++ [':'] else []) ++
      '/' :: '/' :: (nl2 ++ (path ++ (if q ≠ [] then '?' :: q else [])))) =
      (sc, '/' :: '/' :: (nl2 ++ (path ++ (if q ≠ [] then '?' :: q else [])))) := by
    rcases hsc with h2 | h2
    · subst h2
      rw [if_neg (by simp)]
      rw [List.nil_append]
      exact splitScheme_head_not_alpha _ (by
        intro c hc
        simp only [List.head?_cons, Option.some.injEq] at hc
        cases hc
        decide)
    · rw [if_pos h2.1]
      rw [List.append_assoc, List.singleton_append]
      exact splitScheme_valid sc _ h2.1 h2.2.1 h2.2.2.1 h2.2.2.2
  unfold urlsplit
  rw [dropC0Space_eq_self _ hhead]
  have hru : removeUnsafe ((if sc ≠ [] then sc ++ [':'] else []) ++
      '/' :: '/' :: (nl2 ++ (path ++ (if q ≠ [] then '?' :: q else [])))) =
      ((if sc ≠ [] then sc ++ [':'] else []) ++
      '/' :: '/' :: (nl2 ++ (path ++ (if q ≠ [] then '?' :: q else [])))) :=
    List.filter_eq_self.mpr (fun c hc => by rw [hclean c hc]; rfl)
  rw [hru]
  dsimp only
  rw [hscheme_step]
  dsimp only
  rw [show List.take 2 ('/' :: '/' :: (nl2 ++ (path ++
    (if q ≠ [] then '?' :: q else [])))) = ['/', '/'] from rfl]
  rw [if_pos rfl]
  rw [show List.drop 2 ('/' :: '/' :: (nl2 ++ (path ++
    (if q ≠ [] then '?' :: q else [])))) =
    nl2 ++ (path ++ (if q ≠ [] then '?' :: q else [])) from rfl]
  rw [splitNetloc_append nl2 (path ++ (if q ≠ [] then '?' :: q else [])) hnl2free ?hbound]
  case hbound =>
    rcases hpath_head with hp | hp
    · subst hp
      rw [List.nil_append]
      by_cases hq : q ≠ []
      · rw [if_pos hq]
        exact Or.inr ⟨'?', q, rfl, by decide⟩
      · rw [if_neg hq]
        exact Or.inl rfl
    · cases path with
      | nil => simp at hp
      | cons c t =>
        simp only [List.head?_cons, Option.some.injEq] at hp
        cases hp
        exact Or.inr ⟨'/', _, rfl, by decide⟩
  dsimp only
  rw [splitOpt_eq_self (· == '#') (path ++ (if q ≠ [] then '?' :: q else [])) ?hnofrag]
  case hnofrag =>
    intro c hc
    rcases htail_mem c hc with h5 | h5 | h5
    · exact beq_eq_false_iff_ne.mpr (fun he => hpathh (he ▸ h5))
    · cases h5; decide
    · exact beq_eq_false_iff_ne.mpr (fun he => hqh (he ▸ h5))
  dsimp only
  by_cases hq : q ≠ []
  · rw [if_pos hq]
    rw [splitOpt_append (· == '?') '?' path q (by decide)
      (fun c hc => beq_eq_false_iff_ne.mpr (fun he => hpathq (he ▸ hc)))]
  · rw [if_neg hq]
    rw [List.append_nil]
    rw [splitOpt_eq_self (· == '?') path
      (fun c hc => beq_eq_false_iff_ne.mpr (fun he => hpathq (he ▸ hc)))]
    simp only [not_not] at hq
    rw [hq]

/-! ### The canonical host is already lower-case, and lower-casing preserves
character classes that contain no lower-case letter -/

theorem stripWwwDot_sub (s : Str) : ∀ c ∈ stripWwwDot s, c ∈ s := by
  unfold stripWwwDot
  split
  · exact fun c hc => List.drop_subset _ _ hc
  · exact fun c hc => hc

theorem lowerStr_drop (n : Nat) (t : Str) :
    lowerStr (t.drop n) = (lowerStr t).drop n := by
  unfold lowerStr
  exact List.map_drop lowerChar t n

theorem lowerStr_stripWww (s : Str) :
    lowerStr (stripWwwDot (lowerStr s)) = stripWwwDot (lowerStr s) := by
  unfold stripWwwDot
  split
  · rw [lowerStr_drop, lowerStr_idem]
  · exact lowerStr_idem s

theorem lowerStr_pres_free (p : Char → Bool) (s : Str)
    (hp : ∀ c, p c = true → ¬(97 ≤ c.toNat ∧ c.toNat ≤ 122))
    (hs : ∀ c ∈ s, p c = false) : ∀ c ∈ lowerStr s, p c = false := by
  intro c hc
  rcases List.mem_map.mp hc with ⟨d, hd, hdc⟩
  by_cases hu : 65 ≤ d.toNat ∧ d.toNat ≤ 90
  · have h2 := lowerChar_toNat_of_upper d hu.1 hu.2
    cases hpc : p c
    · rfl
    · exfalso
      subst hdc
      exact hp _ hpc ⟨by omega, by omega⟩
  · rw [← hdc, lowerChar_eq_self d hu]
    exact hs d hd

/-- The exact string `urlunsplit` produces for a non-empty netloc and an
absolute-or-empty path. -/
theorem urlunsplit_shape (sc nl path q : Str) (hnl : nl ≠ [])
    (hph : path = [] ∨ path.head? = some '/') :
    urlunsplit ⟨sc, nl, path, q, []⟩ =
      (if sc ≠ [] then sc ++ [':'] else []) ++
      '/' :: '/' :: (nl ++ (path ++ (if q ≠ [] then '?' :: q else []))) := by
  unfold urlunsplit
  dsimp only
  have hp2 : ¬(path ≠ [] ∧ path.head? ≠ some '/') := by
    rintro ⟨hne, hhd⟩
    rcases hph with h | h
    · exact hne h
    · exact hhd h
  rw [if_pos (Or.inl hnl), if_neg hp2, if_neg (show ¬(([] : Str) ≠ []) from by simp)]
  by_cases hsc : sc ≠ []
  · rw [if_pos hsc]
    by_cases hq : q ≠ []
    · rw [if_pos hq]
      simp [List.append_assoc, hsc, hq]
    · rw [if_neg hq]
      simp only [not_not] at hq
      simp [List.append_assoc, hsc, hq]
  · rw [if_neg hsc]
    by_cases hq : q ≠ []
    · rw [if_pos hq]
      simp only [not_not] at hsc
      simp [List.append_assoc, hsc, hq]
    · rw [if_neg hq]
      simp only [not_not] at hsc hq
      simp [List.append_assoc, hsc, hq]

/-- A string already in the canonical shape produced by `canonicalize_url`
(non-empty lower-case non-`www.` host, params-stable path, query that does
not dissolve under `rstrip("/")`) is a fixed point of `canonicalize_url`. -/
theorem canon_form_fixed (sc nl2 J q : Str)
    (hscd : sc = [] ∨ (sc ≠ [] ∧ (∃ c t, sc = c :: t ∧ c.isAlpha = true) ∧
       (∀ c ∈ sc, isSchemeChar c = true) ∧ lowerStr sc = sc))
    (hnl2 : nl2 ≠ [])
    (hfree2 : ∀ c ∈ nl2, (c == '/' || c == '?' || c == '#') = false)
    (hclean2 : ∀ c ∈ nl2, (c == '\t' || c == '\r' || c == '\n') = false)
    (hJhead : J = [] ∨ J.head? = some '/')
    (hJq : '?' ∉ J) (hJh : '#' ∉ J)
    (hJclean : ∀ c ∈ J, (c == '\t' || c == '\r' || c == '\n') = false)
    (hqh : '#' ∉ q)
    (hqclean : ∀ c ∈ q, (c == '\t' || c == '\r' || c == '\n') = false)
    (hq : q = [] ∨ dropTrailingSlashes q ≠ [])
    (hlow : lowerStr nl2 = nl2) (hwww : nl2.take 4 ≠ "www.".data)
    (hd1 : q = [] → paramsRejoin sc (dropTrailingSlashes J) = dropTrailingSlashes J)
    (hd2 : q ≠ [] → paramsRejoin sc J = J) :
    canonicalize_url (dropTrailingSlashes (urlunsplit ⟨sc, nl2, J, q, []⟩)) =
      dropTrailingSlashes (urlunsplit ⟨sc, nl2, J, q, []⟩) := by
  have hlast : nl2.getLast? ≠ some '/' := by
    intro h
    have h2 := hfree2 '/' (List.mem_of_mem_getLast? h)
    simp at h2
  have halast : ((if sc ≠ [] then sc ++ [':'] else []) ++ '/' :: '/' :: nl2).getLast? ≠
      some '/' := by
    rw [show (if sc ≠ [] then sc ++ [':'] else []) ++ '/' :: '/' :: nl2 =
      ((if sc ≠ [] then sc ++ [':'] else []) ++ ['/', '/']) ++ nl2 by simp]
    rw [List.getLast?_append_of_ne_nil _ hnl2]
    exact hlast
  have hsw : stripWwwDot (lowerStr nl2) = nl2 := by
    rw [hlow]
    unfold stripWwwDot
    rw [if_neg hwww]
  rw [urlunsplit_shape sc nl2 J q hnl2 hJhead]
  by_cases hqe : q = []
  · subst hqe
    have hJdtsh : dropTrailingSlashes J = [] ∨
        (dropTrailingSlashes J).head? = some '/' := by
      rcases hJhead with h | h
      · left; rw [h]; rfl
      · exact dropTrailingSlashes_head J h
    have hJdtsq : '?' ∉ dropTrailingSlashes J :=
      fun h => hJq (dropTrailingSlashes_sub J _ h)
    have hJdtsh2 : '#' ∉ dropTrailingSlashes J :=
      fun h => hJh (dropTrailingSlashes_sub J _ h)
    have hJdtsc : ∀ c ∈ dropTrailingSlashes J,
        (c == '\t' || c == '\r' || c == '\n') = false :=
      fun c hc => hJclean c (dropTrailingSlashes_sub J c hc)
    rw [if_neg (show ¬(([] : Str) ≠ []) from by simp), List.append_nil]
    rw [show (if sc ≠ [] then sc ++ [':'] else []) ++ '/' :: '/' :: (nl2 ++ J) =
      ((if sc ≠ [] then sc ++ [':'] else []) ++ '/' :: '/' :: nl2) ++ J by
        simp [List.append_assoc]]
    rw [dropTrailingSlashes_append_getLast _ _ halast]
    have hps := urlsplit_reassembled sc nl2 (dropTrailingSlashes J) [] hscd hnl2
      hfree2 hclean2 hJdtsh hJdtsq hJdtsh2 hJdtsc (by simp) (by simp)
    rw [if_neg (show ¬(([] : Str) ≠ []) from by simp), List.append_nil] at hps
    rw [show (if sc ≠ [] then sc ++ [':'] else []) ++
        '/' :: '/' :: (nl2 ++ dropTrailingSlashes J) =
      ((if sc ≠ [] then sc ++ [':'] else []) ++ '/' :: '/' :: nl2) ++
        dropTrailingSlashes J by simp [List.append_assoc]] at hps
    rw [canonicalize_url_nf]
    unfold canonicalHost
    rw [hps]
    dsimp only
    rw [hsw, hd1 rfl]
    rw [urlunsplit_shape sc nl2 (dropTrailingSlashes J) [] hnl2 hJdtsh]
    rw [if_neg (show ¬(([] : Str) ≠ []) from by simp), List.append_nil]
    rw [show (if sc ≠ [] then sc ++ [':'] else []) ++
        '/' :: '/' :: (nl2 ++ dropTrailingSlashes J) =
      ((if sc ≠ [] then sc ++ [':'] else []) ++ '/' :: '/' :: nl2) ++
        dropTrailingSlashes J by simp [List.append_assoc]]
    rw [dropTrailingSlashes_append_getLast _ _ halast]
    rw [dropTrailingSlashes_idem]
  · rcases hq with h | hdq
    · exact absurd h hqe
    rw [if_pos hqe]
    have hq1 : dropTrailingSlashes ('?' :: q) = '?' :: dropTrailingSlashes q := by
      have h2 := dropTrailingSlashes_append_of_ne ['?'] q hdq
      simpa using h2
    have hq2 : dropTrailingSlashes ('?' :: dropTrailingSlashes q) =
        '?' :: dropTrailingSlashes q := by
      have h2 := dropTrailingSlashes_append_of_ne ['?'] (dropTrailingSlashes q)
        (by rw [dropTrailingSlashes_idem]; exact hdq)
      rw [dropTrailingSlashes_idem] at h2
      simpa using h2
    rw [show (if sc ≠ [] then sc ++ [':'] else []) ++
        '/' :: '/' :: (nl2 ++ (J ++ '?' :: q)) =
      ((if sc ≠ [] then sc ++ [':'] else []) ++ '/' :: '/' :: (nl2 ++ J)) ++
        '?' :: q by simp [List.append_assoc]]
    rw [dropTrailingSlashes_append_of_ne _ _ (by rw [hq1]; simp)]
    rw [hq1]
    have hps := urlsplit_reassembled sc nl2 J (dropTrailingSlashes q) hscd hnl2
      hfree2 hclean2 hJhead hJq hJh hJclean
      (fun h => hqh (dropTrailingSlashes_sub q _ h))
      (fun c hc => hqclean c (dropTrailingSlashes_sub q c hc))
    rw [if_pos hdq] at hps
    rw [show (if sc ≠ [] then sc ++ [':'] else []) ++
        '/' :: '/' :: (nl2 ++ (J ++ '?' :: dropTrailingSlashes q)) =
      ((if sc ≠ [] then sc ++ [':'] else []) ++ '/' :: '/' :: (nl2 ++ J)) ++
        '?' :: dropTrailingSlashes q by simp [List.append_assoc]] at hps
    rw [canonicalize_url_nf]
    unfold canonicalHost
    rw [hps]
    dsimp only
    rw [hsw, hd2 hqe]
    rw [urlunsplit_shape sc nl2 J (dropTrailingSlashes q) hnl2 hJhead]
    rw [if_pos hdq]
    rw [show (if sc ≠ [] then sc ++ [':'] else []) ++
        '/' :: '/' :: (nl2 ++ (J ++ '?' :: dropTrailingSlashes q)) =
      ((if sc ≠ [] then sc ++ [':'] else []) ++ '/' :: '/' :: (nl2 ++ J)) ++
        '?' :: dropTrailingSlashes q by simp [List.append_assoc]]
    rw [dropTrailingSlashes_append_of_ne _ _ (by rw [hq2]; simp)]
    rw [hq2]

/-- C3 (amended): `canonicalize_url` is idempotent on every URL whose
canonical host is non-empty and does not itself start with another `"www."`,
whose query does not consist purely of slashes, and whose canonical path
survives a second params split/rejoin. -/
theorem canonicalize_url_idempotent_amended (u : Str)
    (ha : canonicalHost u ≠ [])
    (hb : (canonicalHost u).take 4 ≠ "www.".data)
    (hc : (urlsplit u).query = [] ∨ dropTrailingSlashes (urlsplit u).query ≠ [])
    (hd : paramsRejoin (urlsplit u).scheme (canonicalPathPart u) = canonicalPathPart u) :
    canonicalize_url (canonicalize_url u) = canonicalize_url u := by
  obtain ⟨hfree, ⟨hpq, hph⟩, hqh, hscd, hnlpath, hnlclean, hpclean, hqclean⟩ :=
    urlsplit_inv u
  have hpdelim : ∀ d : Char, (d == '/' || d == '?' || d == '#') = true →
      ¬(97 ≤ d.toNat ∧ d.toNat ≤ 122) := by
    intro d hdt
    simp only [Bool.or_eq_true, beq_iff_eq] at hdt
    rcases hdt with (rfl | rfl) | rfl <;> decide
  have hpwhite : ∀ d : Char, (d == '\t' || d == '\r' || d == '\n') = true →
      ¬(97 ≤ d.toNat ∧ d.toNat ≤ 122) := by
    intro d hdt
    simp only [Bool.or_eq_true, beq_iff_eq] at hdt
    rcases hdt with (rfl | rfl) | rfl <;> decide
  have hnlne : (urlsplit u).netloc ≠ [] := by
    intro h
    apply ha
    unfold canonicalHost
    rw [h]
    decide
  have hfree2 : ∀ c ∈ canonicalHost u, (c == '/' || c == '?' || c == '#') = false := by
    intro c hc2
    unfold canonicalHost at hc2
    exact lowerStr_pres_free _ _ hpdelim hfree c (stripWwwDot_sub _ c hc2)
  have hclean2 : ∀ c ∈ canonicalHost u, (c == '\t' || c == '\r' || c == '\n') = false := by
    intro c hc2
    unfold canonicalHost at hc2
    exact lowerStr_pres_free _ _ hpwhite hnlclean c (stripWwwDot_sub _ c hc2)
  have hJhead := paramsRejoin_head (urlsplit u).scheme (urlsplit u).path (hnlpath hnlne)
  have hJq : '?' ∉ paramsRejoin (urlsplit u).scheme (urlsplit u).path :=
    fun h => hpq (paramsRejoin_mem _ _ _ h)
  have hJh : '#' ∉ paramsRejoin (urlsplit u).scheme (urlsplit u).path :=
    fun h => hph (paramsRejoin_mem _ _ _ h)
  have hJclean : ∀ c ∈ paramsRejoin (urlsplit u).scheme (urlsplit u).path,
      (c == '\t' || c == '\r' || c == '\n') = false :=
    fun c hc2 => hpclean c (paramsRejoin_mem _ _ _ hc2)
  have hlow : lowerStr (canonicalHost u) = canonicalHost u := by
    unfold canonicalHost
    exact lowerStr_stripWww _
  have hd1 : (urlsplit u).query = [] →
      paramsRejoin (urlsplit u).scheme
        (dropTrailingSlashes (paramsRejoin (urlsplit u).scheme (urlsplit u).path)) =
      dropTrailingSlashes (paramsRejoin (urlsplit u).scheme (urlsplit u).path) := by
    intro hq0
    have hcp : canonicalPathPart u =
        dropTrailingSlashes (paramsRejoin (urlsplit u).scheme (urlsplit u).path) := by
      unfold canonicalPathPart
      dsimp only
      rw [if_pos hq0]
    rw [← hcp]
    exact hd
  have hd2 : (urlsplit u).query ≠ [] →
      paramsRejoin (urlsplit u).scheme
        (paramsRejoin (urlsplit u).scheme (urlsplit u).path) =
      paramsRejoin (urlsplit u).scheme (urlsplit u).path := by
    intro hq0
    have hcp : canonicalPathPart u =
        paramsRejoin (urlsplit u).scheme (urlsplit u).path := by
      unfold canonicalPathPart
      dsimp only
      rw [if_neg hq0]
    rw [← hcp]
    exact hd
  rw [canonicalize_url_nf u]
  exact canon_form_fixed (urlsplit u).scheme (canonicalHost u)
    (paramsRejoin (urlsplit u).scheme (urlsplit u).path) (urlsplit u).query
    hscd ha hfree2 hclean2 hJhead hJq hJh hJclean hqh hqclean hc hlow hb hd1 hd2

/-- C3 counterexample: on `"http://www.www.example.com/"` one pass yields
`"http://www.example.com"` and a second pass strips the exposed `"www."`
again, so `canonicalize_url` is not idempotent on all URLs. -/
theorem canonicalize_url_not_idempotent_cex :
    canonicalize_url (canonicalize_url "http://www.www.example.com/".data) ≠
      canonicalize_url "http://www.www.example.com/".data := by decide

/-- Witness: the amended idempotence theorem applies to a concrete ordinary
URL with upper-case `"www."`-ed host, a path, and a fragment. -/
theorem canonicalize_url_idempotent_amended_witness :
    canonicalize_url (canonicalize_url "https://www.EXAMPLE.com/a/#frag".data) =
      canonicalize_url "https://www.EXAMPLE.com/a/#frag".data :=
  canonicalize_url_idempotent_amended _ (by decide) (by decide) (by decide) (by decide)
